import Mathlib

/-!
Verification of the `tile-tools` tile covering engine.

This file is a shallow embedding of `tile_tools/tilebelt/point.py`,
`tile_tools/tilebelt/traverse.py` and `tile_tools/cover/tiles.py`,
together with theorems settling specification claims about them.

Modelling conventions:
* Python `int` is `ℤ`; Python `float` arithmetic (including `math.sin`,
  `math.log`, `math.exp`, `math.atan`) is modelled as exact real arithmetic.
* Python `float` `%` with a positive divisor is `pymod a b = a - b * ⌊a / b⌋`.
* `math.inf` (used for the traversal parameters when a segment is axis
  parallel) is modelled with `EReal`, whose `⊤` behaves like `inf` in all
  comparisons and additions performed by the code.
* Python `set` is `Finset`; `set.remove` is `Finset.erase` (the code never
  removes an absent element on the paths reachable in the theorems below).
* The `while` loops of the traversal are modelled with an explicit fuel that
  bounds the number of iterations; all theorems about the loop either hold
  for every fuel or evaluate runs that terminate within the supplied fuel.
-/

namespace TileTools

/-- A tile as an `(x, y, z)` triple of integers (`common.types.Tile`). -/
abbrev Tile : Type := ℤ × ℤ × ℤ

/-- A fractional tile `(x, y, z)` (`common.types.FTile`). -/
abbrev FTile : Type := ℝ × ℝ × ℤ

/-- A `(lon, lat)` point in degrees (`common.types.Point`). -/
abbrev Point : Type := ℝ × ℝ

/-! ### `tilebelt/traverse.py` (computable part) -/

/-- `MAX_ZOOM` from `tilebelt/traverse.py`. -/
def MAX_ZOOM : ℤ := 28

/-- `MIN_ZOOM` from `tilebelt/traverse.py`. -/
def MIN_ZOOM : ℤ := 0

/-- `get_children(tile, zmax)` from `tilebelt/traverse.py`.  The Python
default for `zmax` is `MAX_ZOOM`; the zoom test `if zmax and z1 > zmax`
uses Python truthiness, so `None` and `0` both disable the bound. -/
def get_children (tile : Tile) (zmax : Option ℤ) : List Tile :=
  let x0 := tile.1
  let y0 := tile.2.1
  let z0 := tile.2.2
  let z1 := z0 + 1
  let bounded : Bool :=
    match zmax with
    | none => false
    | some m => decide (¬ m = 0 ∧ z1 > m)
  if bounded then []
  else
    let x1 := 2 * x0
    let y1 := 2 * y0
    [(x1, y1, z1), (x1 + 1, y1, z1), (x1 + 1, y1 + 1, z1), (x1, y1 + 1, z1)]

/-- `get_parent(tile, zmin)` from `tilebelt/traverse.py`.  The Python default
for `zmin` is `MIN_ZOOM`; the test is `if zmin is not None and z1 < zmin`. -/
def get_parent (tile : Tile) (zmin : Option ℤ) : Tile :=
  let x0 := tile.1
  let y0 := tile.2.1
  let z0 := tile.2.2
  let z1 := z0 - 1
  let blocked : Bool :=
    match zmin with
    | none => false
    | some m => decide (z1 < m)
  if blocked then (0, 0, 0)
  else (x0 / 2, y0 / 2, z1)

/-! ### `cover/tiles.py`: zoom parsing, merging, extrapolation -/

/-- Zoom input: a fixed level or a `(min, max)` range
(`ZoomInput = Union[int, ZoomRange]` in `cover/tiles.py`). -/
inductive ZoomInput : Type
  | fixed (z : ℤ)
  | range (zmin zmax : ℤ)
deriving DecidableEq, Repr

/-- `_parse_zoom` from `cover/tiles.py`.  Raising `ValueError` is modelled
with `Except.error` (the message is abridged). -/
def _parse_zoom (z : ZoomInput) : Except String (ℤ × ℤ) :=
  match z with
  | .fixed z => .ok (z, z)
  | .range zmin zmax =>
      if zmin > zmax then .error "invalid zoom range: min greater than max"
      else .ok (zmin, zmax)

/-- `_merge_tile_data` from `cover/tiles.py`: `tile_array + list(tile_hash)`.
The set-to-list order (arbitrary in Python) is the canonical
`Finset.toList` order. -/
noncomputable def _merge_tile_data (tile_hash : Finset Tile) (tile_array : List Tile) :
    List Tile :=
  tile_array ++ tile_hash.toList

/-- State of one pass of the `while` loop of `_extrapolate_zoom_range`:
the mutating tile hash, the parent hash/list being built, and the final
tile list accumulated so far. -/
structure ExtraState : Type where
  hash : Finset Tile
  parentHash : Finset Tile
  parents : List Tile
  finals : List Tile
deriving DecidableEq

/-- Body of the first `for t in tiles` loop of `_extrapolate_zoom_range`:
if `t` has even coordinates and its three siblings are in the hash, remove
the quad and add the parent (directly to the final list when `z - 1` is the
minimum zoom). -/
def extraMerge (minZ z : ℤ) (st : ExtraState) (t : Tile) : ExtraState :=
  if t.1 % 2 = 0 ∧ t.2.1 % 2 = 0 then
    let t2 : Tile := (t.1 + 1, t.2.1, z)
    let t3 : Tile := (t.1, t.2.1 + 1, z)
    let t4 : Tile := (t.1 + 1, t.2.1 + 1, z)
    if t2 ∈ st.hash ∧ t3 ∈ st.hash ∧ t4 ∈ st.hash then
      let hash := (((st.hash.erase t).erase t2).erase t3).erase t4
      let parent : Tile := (t.1 / 2, t.2.1 / 2, z - 1)
      if z - 1 = minZ then
        ⟨hash, st.parentHash, st.parents, st.finals ++ [parent]⟩
      else
        ⟨hash, insert parent st.parentHash, st.parents ++ [parent], st.finals⟩
    else st
  else st

/-- One iteration of the `while z > min_zoom` loop of
`_extrapolate_zoom_range`: merge complete quads, then append the surviving
tiles of this zoom to the final list. -/
def extraPass (minZ z : ℤ) (tiles : List Tile) (hash : Finset Tile)
    (finals : List Tile) : ExtraState :=
  let st := tiles.foldl (extraMerge minZ z) ⟨hash, ∅, [], finals⟩
  let finals := st.finals ++ tiles.filter (fun t => t ∈ st.hash)
  ⟨st.hash, st.parentHash, st.parents, finals⟩

/-- The `while z > min_zoom` loop of `_extrapolate_zoom_range`, with fuel.
The function is called with fuel `(zmax - zmin).toNat`, which makes the
fuel reach `0` exactly when `z` reaches `min_zoom`. -/
def extraLoop (minZ : ℤ) : ℕ → ℤ → List Tile → Finset Tile → List Tile → List Tile
  | 0, _, _, _, finals => finals
  | n + 1, z, tiles, hash, finals =>
      if z > minZ then
        let st := extraPass minZ z tiles hash finals
        extraLoop minZ n (z - 1) st.parents st.parentHash st.finals
      else finals

/-- `_extrapolate_zoom_range` from `cover/tiles.py`. -/
def _extrapolate_zoom_range (tiles : List Tile) (zoom : ℤ × ℤ) : List Tile :=
  extraLoop zoom.1 (zoom.2 - zoom.1).toNat zoom.2 tiles tiles.toFinset []

/-! ### `cover/tiles.py`: polygon scanline fill (computable part) -/

/-- The inner `while x < intersections[i + 1][0]` loop of `polygon_cover`:
emit `(x, y, zoom)` for `x` from `a + 1` up to `b - 1`, skipping tiles
already in the border hash.  Recursion is on the remaining count. -/
def scanRange (hash : Finset Tile) (zoom y : ℤ) : ℕ → ℤ → List Tile
  | 0, _ => []
  | n + 1, x =>
      (if (x, y, zoom) ∉ hash then [((x, y, zoom) : Tile)] else []) ++
        scanRange hash zoom y n (x + 1)

/-- The `for i in range(0, len(intersections), 2)` loop of `polygon_cover`.
A trailing unpaired intersection is ignored (Python would raise an
`IndexError` there; that path is unreachable under the evenness
precondition used in the theorems below). -/
def scanlineFill (hash : Finset Tile) (zoom : ℤ) : List (ℤ × ℤ) → List Tile
  | [] => []
  | [_] => []
  | a :: b :: rest =>
      scanRange hash zoom a.2 (b.1 - (a.1 + 1)).toNat (a.1 + 1) ++
        scanlineFill hash zoom rest

/-- The comparison used by `intersections.sort(key=lambda t: (t[1], t[0]))`:
lexicographic on `(y, x)`. -/
def yxLe (a b : ℤ × ℤ) : Prop :=
  a.2 < b.2 ∨ (a.2 = b.2 ∧ a.1 ≤ b.1)

instance : DecidableRel yxLe := fun a b =>
  inferInstanceAs (Decidable (a.2 < b.2 ∨ (a.2 = b.2 ∧ a.1 ≤ b.1)))

/-- The body of the ring scan of `polygon_cover`: index `m` contributes
`ring[m - 1]` when its `y` is neither a local minimum, nor a local maximum,
nor equal to the following `y`.  Python negative indices wrap, modelled
with `emod` on the index.  Divergence: on a ring of length 1 the source
reads `ring[-2]` and raises `IndexError`, while the `emod` model wraps to
the single element and returns `[]`; no theorem below relies on that
path. -/
def ringIntersections (ring : List (ℤ × ℤ)) : List (ℤ × ℤ) :=
  let n : ℤ := ring.length
  (List.range ring.length).filterMap fun (m : ℕ) =>
    let k := ring.getD (((m : ℤ) - 2).emod n).toNat (0, 0)
    let j := ring.getD (((m : ℤ) - 1).emod n).toNat (0, 0)
    let ky := k.2
    let y := j.2
    let my := (ring.getD m (0, 0)).2
    if (y > ky ∨ y > my) ∧ (y < ky ∨ y < my) ∧ y ≠ my then some j else none

/-- `c` is a zoom-`zmax` cell equal to, or a descendant of, the tile `t`:
`c` sits at zoom `zmax` and truncating its coordinates down to `t`'s zoom
(floor division by `2 ^ (zmax - t.z)`) recovers `t`. -/
def isDescendantCell (zmax : ℤ) (c t : Tile) : Prop :=
  t.2.2 ≤ zmax ∧ c.2.2 = zmax ∧
    c.1 / 2 ^ (zmax - t.2.2).toNat = t.1 ∧
    c.2.1 / 2 ^ (zmax - t.2.2).toNat = t.2.1

instance (zmax : ℤ) (c t : Tile) : Decidable (isDescendantCell zmax c t) := by
  unfold isDescendantCell
  infer_instance

/-! ### `tilebelt/point.py`: the Web Mercator projection -/

noncomputable section

/-- `d2r` from `tilebelt/point.py`: degrees to radians. -/
def d2r : ℝ := Real.pi / 180.0

/-- `r2d` from `tilebelt/point.py`: radians to degrees. -/
def r2d : ℝ := 180.0 / Real.pi

/-- Python float `%` for a positive divisor: `a - b * ⌊a / b⌋`. -/
def pymod (a b : ℝ) : ℝ := a - b * ⌊a / b⌋

/-- `point_to_tile_fraction` from `tilebelt/point.py` (the returning path).
Total real division passes silently through the two latitudes where the
source raises; `point_to_tile_fraction_checked` below models those error
paths. -/
def point_to_tile_fraction (p : Point) (z : ℤ) : FTile :=
  let lon := p.1
  let lat := p.2
  let s := Real.sin (lat * d2r)
  let _2z : ℝ := 2 ^ z
  let x := _2z * (lon / 360.0 + 0.5)
  let y := _2z * (0.5 - 0.25 * Real.log ((1 + s) / (1 - s)) / Real.pi)
  let x1 := pymod x _2z
  let x2 := if x1 < 0 then x1 + _2z else x1
  (x2, y, z)

/-- Error paths of `point_to_tile_fraction` made explicit: the source
evaluates `math.log((1 + sin) / (1 - sin))`, which raises
`ZeroDivisionError` when `1 - sin = 0` (latitude congruent to 90°) and
`ValueError` when the quotient is not positive (latitude congruent to
-90°, where the quotient is `0`); on those inputs nothing is returned,
modelled by `none`.  Everywhere else the source returns exactly the value
of the total model `point_to_tile_fraction`. -/
def point_to_tile_fraction_checked (p : Point) (z : ℤ) : Option FTile :=
  if 1 - Real.sin (p.2 * d2r) = 0 then none
  else if (1 + Real.sin (p.2 * d2r)) / (1 - Real.sin (p.2 * d2r)) ≤ 0 then none
  else some (point_to_tile_fraction p z)

/-- `point_to_tile` from `tilebelt/point.py`. -/
def point_to_tile (p : Point) (z : ℤ) : Tile :=
  let f := point_to_tile_fraction p z
  (⌊f.1⌋, ⌊f.2.1⌋, z)

/-- `tile_to_point` from `tilebelt/point.py`, exactly as written in the
source — including the parenthesisation `x / (_2z * 360.0)` of the
longitude expression. -/
def tile_to_point (t : FTile) : Point :=
  let _2z : ℝ := 2 ^ t.2.2
  let lon := t.1 / (_2z * 360.0) - 180.0
  let n := Real.pi - (2 * Real.pi) * (t.2.1 / _2z)
  let lat := r2d * Real.arctan (0.5 * (Real.exp n - Real.exp (-n)))
  (lon, lat)

/-! ### `cover/tiles.py`: `cover_point` and `line_cover` -/

/-- `cover_point` from `cover/tiles.py`. -/
def cover_point (point : Point) (z : ℤ) : Finset Tile :=
  {point_to_tile point z}

/-- State threaded through the segments of `line_cover`: the tile hash, the
ring, and the Python variables `prev_x`/`prev_y` (which double as the final
values of the loop variables `x`/`y`, see `processSegment`). -/
structure LineState : Type where
  hash : Finset Tile
  ring : List (ℤ × ℤ)
  prev : Option (ℤ × ℤ)

/-- The `while tmax_x < 1 or tmax_y < 1` loop of `line_cover`.  The state is
`(x, y, tmax_x, tmax_y, hash, ring, prev_y)`; `prev_x` is omitted because
inside the loop it always equals `x` and is never read.  Returns the final
`(hash, ring, x, y)`. -/
def lineLoop (zoom sx sy : ℤ) (tdx tdy : EReal) :
    ℕ → ℤ → ℤ → EReal → EReal → Finset Tile → List (ℤ × ℤ) → ℤ →
      Finset Tile × List (ℤ × ℤ) × ℤ × ℤ
  | 0, x, y, _, _, hash, ring, _ => (hash, ring, x, y)
  | n + 1, x, y, tmx, tmy, hash, ring, py =>
      if tmx < 1 ∨ tmy < 1 then
        let step : ℤ × ℤ × EReal × EReal :=
          if tmx < tmy then (x + sx, y, tmx + tdx, tmy)
          else (x, y + sy, tmx, tmy + tdy)
        let x1 := step.1
        let y1 := step.2.1
        let hash1 := insert ((x1, y1, zoom) : Tile) hash
        let ring1 := if y1 ≠ py then ring ++ [(x1, y1)] else ring
        lineLoop zoom sx sy tdx tdy n x1 y1 step.2.2.1 step.2.2.2 hash1 ring1 y1
      else (hash, ring, x, y)

/-- One iteration of the `for i in range(len(line) - 1)` loop of
`line_cover`: process the segment from `p0` to `p1`.

The loop fuel `⌈|dx|⌉ + ⌈|dy|⌉ + 1` strictly exceeds the number of loop
iterations: every iteration increases `tmax_x` by `1/|dx|` or `tmax_y` by
`1/|dy|`, and the loop stops once both reach `1`, so there are at most
`⌈|dx|⌉ + ⌈|dy|⌉` iterations. -/
def processSegment (zoom : ℤ) (p0 p1 : Point) (st : LineState) : LineState :=
  let f0 := point_to_tile_fraction p0 zoom
  let f1 := point_to_tile_fraction p1 zoom
  let x0 := f0.1
  let y0 := f0.2.1
  let x1 := f1.1
  let y1 := f1.2.1
  let dx := x1 - x0
  let dy := y1 - y0
  if dx = 0 ∧ dy = 0 then st
  else
    let sx : ℤ := if dx > 0 then 1 else -1
    let sy : ℤ := if dy > 0 then 1 else -1
    let x : ℤ := ⌊x0⌋
    let y : ℤ := ⌊y0⌋
    let tmax_x : EReal :=
      if dx = 0 then ⊤ else ((|((if dx > 0 then (1 : ℝ) else 0) + x - x0) / dx| : ℝ) : EReal)
    let tmax_y : EReal :=
      if dy = 0 then ⊤ else ((|((if dy > 0 then (1 : ℝ) else 0) + y - y0) / dy| : ℝ) : EReal)
    let tdx : EReal := if dx = 0 then ⊤ else ((|(sx : ℝ) / dx| : ℝ) : EReal)
    let tdy : EReal := if dy = 0 then ⊤ else ((|(sy : ℝ) / dy| : ℝ) : EReal)
    let start : Finset Tile × List (ℤ × ℤ) × ℤ × ℤ :=
      match st.prev with
      | some (pxv, pyv) =>
          if x ≠ pxv ∨ y ≠ pyv then
            (insert ((x, y, zoom) : Tile) st.hash, st.ring ++ [(x, y)], x, y)
          else (st.hash, st.ring, pxv, pyv)
      | none => (insert ((x, y, zoom) : Tile) st.hash, st.ring ++ [(x, y)], x, y)
    let fuel : ℕ := (⌈|dx|⌉ + ⌈|dy|⌉ + 1).toNat
    let res := lineLoop zoom sx sy tdx tdy fuel x y tmax_x tmax_y start.1 start.2.1 start.2.2.2
    ⟨res.1, res.2.1, some (res.2.2.1, res.2.2.2)⟩

/-- `line_cover` from `cover/tiles.py`.  The final ring-closure test
`if ring and y == ring[0][1]: ring.pop()` reads the loop variable `y`,
which (whenever `ring` is non-empty) equals the second component of the
`prev` state; when no segment was processed at all, `ring` is empty and
Python short-circuits before reading `y`. -/
def line_cover (line : List Point) (zoom : ℤ) : Finset Tile × List (ℤ × ℤ) :=
  let st := (line.zip line.tail).foldl
    (fun st pq => processSegment zoom pq.1 pq.2 st) ⟨∅, [], none⟩
  let ring :=
    match st.ring, st.prev with
    | [], _ => ([] : List (ℤ × ℤ))
    | h :: t, some pv => if pv.2 = h.2 then (h :: t).dropLast else h :: t
    | h :: t, none => h :: t
  (st.hash, ring)

/-! ### `cover/tiles.py`: `polygon_cover` and the dispatcher `tiles` -/

/-- The accumulation phase of `polygon_cover`: union the border tiles of
every ring and concatenate the recorded intersections. -/
def polygonRings (coords : List (List Point)) (zoom : ℤ) :
    Finset Tile × List (ℤ × ℤ) :=
  coords.foldl
    (fun acc line =>
      let lc := line_cover line zoom
      (acc.1 ∪ lc.1, acc.2 ++ ringIntersections lc.2))
    (∅, [])

/-- The intersections of `polygon_cover`, sorted by `(y, x)` as done by
`intersections.sort(key=lambda t: (t[1], t[0]))`. -/
def sortedIntersections (coords : List (List Point)) (zoom : ℤ) : List (ℤ × ℤ) :=
  List.insertionSort yxLe (polygonRings coords zoom).2

/-- `polygon_cover` from `cover/tiles.py`. -/
def polygon_cover (coords : List (List Point)) (zoom : ℤ) :
    Finset Tile × List Tile :=
  let tile_hash := (polygonRings coords zoom).1
  (tile_hash, scanlineFill tile_hash zoom (sortedIntersections coords zoom))

/-- GeoJSON geometry variants supported by `tiles` (`common.types.Geom`). -/
inductive Geom : Type
  | point (c : Point)
  | multiPoint (cs : List Point)
  | lineString (cs : List Point)
  | multiLineString (cs : List (List Point))
  | polygon (cs : List (List Point))
  | multiPolygon (cs : List (List (List Point)))

/-- The geometry dispatch of `tiles`: the accumulated
`(tile list, tile hash)` before merging. -/
def dispatch (geom : Geom) (maxZoom : ℤ) : List Tile × Finset Tile :=
  match geom with
  | .point c => ([], cover_point c maxZoom)
  | .multiPoint cs => ([], cs.foldl (fun h c => h ∪ cover_point c maxZoom) ∅)
  | .lineString cs => ([], (line_cover cs maxZoom).1)
  | .multiLineString ls => ([], ls.foldl (fun h l => h ∪ (line_cover l maxZoom).1) ∅)
  | .polygon rs =>
      let pc := polygon_cover rs maxZoom
      (pc.2, pc.1)
  | .multiPolygon ps =>
      ps.foldl
        (fun acc p =>
          let pc := polygon_cover p maxZoom
          (acc.1 ++ pc.2, acc.2 ∪ pc.1))
        ([], ∅)

/-- `tiles` from `cover/tiles.py`.  The `ValueError`/`TypeError` raised by
`_parse_zoom` propagates out of `tiles` before any geometry dispatch, which
is modelled by the `Except` bind. -/
def tiles (geom : Geom) (zoom : ZoomInput) : Except String (List Tile) :=
  match _parse_zoom zoom with
  | .error e => .error e
  | .ok (minZoom, maxZoom) =>
      let d := dispatch geom maxZoom
      let merged := _merge_tile_data d.2 d.1
      .ok (if minZoom ≠ maxZoom then _extrapolate_zoom_range merged (minZoom, maxZoom)
           else merged)

end

/-- The invariant maintained by the merge fold of one `_extrapolate_zoom_range`
pass at level `z`: `Q` is the still-unprocessed suffix of the level's tiles. -/
structure PassInv (zmin zmax z : ℤ) (T tl Q : List Tile) (st : ExtraState) : Prop where
  hashz : ∀ t ∈ st.hash, t.2.2 = z
  hashsub : st.hash ⊆ tl.toFinset
  hQ : ∀ u ∈ Q, u.1 % 2 = 0 → u.2.1 % 2 = 0 → u ∈ st.hash
  parz : ∀ t ∈ st.parents, t.2.2 = z - 1
  parnd : st.parents.Nodup
  parhash : st.parentHash = st.parents.toFinset
  parmin : z - 1 = zmin → st.parents = []
  finz : ∀ t ∈ st.finals,
    (zmin ≤ t.2.2 ∧ t.2.2 ≤ zmax) ∧ ((t.2.2 = z - 1 ∧ z - 1 = zmin) ∨ z < t.2.2)
  finnd : st.finals.Nodup
  leadgone : ∀ p : Tile, (p ∈ st.parents ∨ (p ∈ st.finals ∧ p.2.2 = z - 1)) →
    ((2 * p.1, 2 * p.2.1, z) : Tile) ∉ st.hash
  subcov : ∀ t : Tile, (t ∈ st.finals ∨ t ∈ st.parents ∨ t ∈ st.hash) →
    ∀ c, isDescendantCell zmax c t → c ∈ T
  excov : ∀ c ∈ T, ∃! t : Tile,
    (t ∈ st.finals ∨ t ∈ st.parents ∨ t ∈ st.hash) ∧ isDescendantCell zmax c t

instance : IsTotal (ℤ × ℤ) yxLe :=
  ⟨fun a b => by
    simp only [yxLe]
    omega⟩

instance : IsTrans (ℤ × ℤ) yxLe :=
  ⟨fun a b c hab hbc => by
    simp only [yxLe] at hab hbc ⊢
    omega⟩

noncomputable section

/-- Latitude (in degrees) whose exact Mercator image is controlled by the
parameter `t`: `latOfMerc t` projects to the fractional `y` coordinate
`2 ^ z * (1/2 - t / (2π))`.  This is only a device for building test
inputs with exactly representable projections; `latOfMerc 0 = 0`. -/
def latOfMerc (t : ℝ) : ℝ := r2d * Real.arctan (Real.sinh t)

end

noncomputable section

/-- The body of `processSegment` with the two projected endpoints as
explicit arguments; `processSegment zoom p0 p1 st` is definitionally
`segmentBody zoom (point_to_tile_fraction p0 zoom)
(point_to_tile_fraction p1 zoom) st` (see `processSegment_eq_body`). -/
def segmentBody (zoom : ℤ) (f0 f1 : FTile) (st : LineState) : LineState :=
  let x0 := f0.1
  let y0 := f0.2.1
  let x1 := f1.1
  let y1 := f1.2.1
  let dx := x1 - x0
  let dy := y1 - y0
  if dx = 0 ∧ dy = 0 then st
  else
    let sx : ℤ := if dx > 0 then 1 else -1
    let sy : ℤ := if dy > 0 then 1 else -1
    let x : ℤ := ⌊x0⌋
    let y : ℤ := ⌊y0⌋
    let tmax_x : EReal :=
      if dx = 0 then ⊤ else ((|((if dx > 0 then (1 : ℝ) else 0) + x - x0) / dx| : ℝ) : EReal)
    let tmax_y : EReal :=
      if dy = 0 then ⊤ else ((|((if dy > 0 then (1 : ℝ) else 0) + y - y0) / dy| : ℝ) : EReal)
    let tdx : EReal := if dx = 0 then ⊤ else ((|(sx : ℝ) / dx| : ℝ) : EReal)
    let tdy : EReal := if dy = 0 then ⊤ else ((|(sy : ℝ) / dy| : ℝ) : EReal)
    let start : Finset Tile × List (ℤ × ℤ) × ℤ × ℤ :=
      match st.prev with
      | some (pxv, pyv) =>
          if x ≠ pxv ∨ y ≠ pyv then
            (insert ((x, y, zoom) : Tile) st.hash, st.ring ++ [(x, y)], x, y)
          else (st.hash, st.ring, pxv, pyv)
      | none => (insert ((x, y, zoom) : Tile) st.hash, st.ring ++ [(x, y)], x, y)
    let fuel : ℕ := (⌈|dx|⌉ + ⌈|dy|⌉ + 1).toNat
    let res := lineLoop zoom sx sy tdx tdy fuel x y tmax_x tmax_y start.1 start.2.1 start.2.2.2
    ⟨res.1, res.2.1, some (res.2.2.1, res.2.2.2)⟩

end

noncomputable section

/-- Test input: longitude -90 at the latitude whose Mercator `y` at zoom 1
is exactly `3/2`. -/
def tieP0 : Point := ((-90 : ℝ), latOfMerc (-(Real.pi / 2)))

/-- Test input: longitude 90 at the latitude whose Mercator `y` at zoom 1
is exactly `5/2`. -/
def tieP1 : Point := ((90 : ℝ), latOfMerc (-(3 * Real.pi / 2)))

end

noncomputable section

/-- Modelled from the spec (refinement comparison only): the traversal loop
as the specification words it — "choosing the axis whose remaining
fractional distance to the next boundary is smaller, breaking ties by
stepping x" — i.e. the x-branch is taken when `tmax_x ≤ tmax_y`.  It is
identical to `lineLoop` except for the branch test. -/
def lineLoopTieX (zoom sx sy : ℤ) (tdx tdy : EReal) :
    ℕ → ℤ → ℤ → EReal → EReal → Finset Tile → List (ℤ × ℤ) → ℤ →
      Finset Tile × List (ℤ × ℤ) × ℤ × ℤ
  | 0, x, y, _, _, hash, ring, _ => (hash, ring, x, y)
  | n + 1, x, y, tmx, tmy, hash, ring, py =>
      if tmx < 1 ∨ tmy < 1 then
        let step : ℤ × ℤ × EReal × EReal :=
          if tmx ≤ tmy then (x + sx, y, tmx + tdx, tmy)
          else (x, y + sy, tmx, tmy + tdy)
        let x1 := step.1
        let y1 := step.2.1
        let hash1 := insert ((x1, y1, zoom) : Tile) hash
        let ring1 := if y1 ≠ py then ring ++ [(x1, y1)] else ring
        lineLoopTieX zoom sx sy tdx tdy n x1 y1 step.2.2.1 step.2.2.2 hash1 ring1 y1
      else (hash, ring, x, y)

/-- Modelled from the spec: `segmentBody` with the tie-x loop. -/
def segmentBodyTieX (zoom : ℤ) (f0 f1 : FTile) (st : LineState) : LineState :=
  let x0 := f0.1
  let y0 := f0.2.1
  let x1 := f1.1
  let y1 := f1.2.1
  let dx := x1 - x0
  let dy := y1 - y0
  if dx = 0 ∧ dy = 0 then st
  else
    let sx : ℤ := if dx > 0 then 1 else -1
    let sy : ℤ := if dy > 0 then 1 else -1
    let x : ℤ := ⌊x0⌋
    let y : ℤ := ⌊y0⌋
    let tmax_x : EReal :=
      if dx = 0 then ⊤ else ((|((if dx > 0 then (1 : ℝ) else 0) + x - x0) / dx| : ℝ) : EReal)
    let tmax_y : EReal :=
      if dy = 0 then ⊤ else ((|((if dy > 0 then (1 : ℝ) else 0) + y - y0) / dy| : ℝ) : EReal)
    let tdx : EReal := if dx = 0 then ⊤ else ((|(sx : ℝ) / dx| : ℝ) : EReal)
    let tdy : EReal := if dy = 0 then ⊤ else ((|(sy : ℝ) / dy| : ℝ) : EReal)
    let start : Finset Tile × List (ℤ × ℤ) × ℤ × ℤ :=
      match st.prev with
      | some (pxv, pyv) =>
          if x ≠ pxv ∨ y ≠ pyv then
            (insert ((x, y, zoom) : Tile) st.hash, st.ring ++ [(x, y)], x, y)
          else (st.hash, st.ring, pxv, pyv)
      | none => (insert ((x, y, zoom) : Tile) st.hash, st.ring ++ [(x, y)], x, y)
    let fuel : ℕ := (⌈|dx|⌉ + ⌈|dy|⌉ + 1).toNat
    let res := lineLoopTieX zoom sx sy tdx tdy fuel x y tmax_x tmax_y start.1 start.2.1 start.2.2.2
    ⟨res.1, res.2.1, some (res.2.2.1, res.2.2.2)⟩

/-- Modelled from the spec: `line_cover` with the tie-x traversal. -/
def line_cover_tieX (line : List Point) (zoom : ℤ) : Finset Tile × List (ℤ × ℤ) :=
  let st := (line.zip line.tail).foldl
    (fun st pq =>
      segmentBodyTieX zoom (point_to_tile_fraction pq.1 zoom)
        (point_to_tile_fraction pq.2 zoom) st)
    ⟨∅, [], none⟩
  let ring :=
    match st.ring, st.prev with
    | [], _ => ([] : List (ℤ × ℤ))
    | h :: t, some pv => if pv.2 = h.2 then (h :: t).dropLast else h :: t
    | h :: t, none => h :: t
  (st.hash, ring)

end

noncomputable section

/-- Rectangle corner (-120°, y = 13/4 at zoom 3). -/
def rectP1 : Point := ((-120 : ℝ), latOfMerc (3 * Real.pi / 16))

/-- Rectangle corner (120°, y = 13/4 at zoom 3). -/
def rectP2 : Point := ((120 : ℝ), latOfMerc (3 * Real.pi / 16))

/-- Rectangle corner (120°, y = 11/2 at zoom 3). -/
def rectP3 : Point := ((120 : ℝ), latOfMerc (-(3 * Real.pi / 8)))

/-- Rectangle corner (-120°, y = 11/2 at zoom 3). -/
def rectP4 : Point := ((-120 : ℝ), latOfMerc (-(3 * Real.pi / 8)))

/-- The closed rectangle ring. -/
def rectRing : List Point := [rectP1, rectP2, rectP3, rectP4, rectP1]

end

/-! ### Helper lemmas for evaluating the projection -/

theorem pymod_eq_fract {a b : ℝ} (hb : b ≠ 0) : pymod a b = b * Int.fract (a / b) := by
  unfold pymod
  rw [Int.fract, mul_sub, mul_div_cancel₀ _ hb]

theorem pymod_nonneg {a b : ℝ} (hb : 0 < b) : 0 ≤ pymod a b := by
  rw [pymod_eq_fract hb.ne']
  exact mul_nonneg hb.le (Int.fract_nonneg _)

theorem pymod_lt {a b : ℝ} (hb : 0 < b) : pymod a b < b := by
  rw [pymod_eq_fract hb.ne']
  calc b * Int.fract (a / b) < b * 1 := by
        exact mul_lt_mul_of_pos_left (Int.fract_lt_one _) hb
    _ = b := mul_one b

theorem sin_arctan_sinh (t : ℝ) :
    Real.sin (Real.arctan (Real.sinh t)) = Real.tanh t := by
  rw [Real.sin_arctan]
  have hsq : Real.sqrt (1 + Real.sinh t ^ 2) = Real.cosh t := by
    rw [← Real.cosh_sq']
    exact Real.sqrt_sq (Real.cosh_pos t).le
  rw [hsq, Real.tanh_eq_sinh_div_cosh]

theorem log_tanh_ratio (t : ℝ) :
    Real.log ((1 + Real.tanh t) / (1 - Real.tanh t)) = 2 * t := by
  have hc : (0 : ℝ) < Real.cosh t := Real.cosh_pos t
  have h1 : 1 + Real.tanh t = Real.exp t / Real.cosh t := by
    rw [Real.tanh_eq_sinh_div_cosh, ← Real.cosh_add_sinh t]
    field_simp
  have h2 : 1 - Real.tanh t = Real.exp (-t) / Real.cosh t := by
    rw [Real.tanh_eq_sinh_div_cosh, ← Real.cosh_sub_sinh t]
    field_simp
  have he : Real.exp (-t) ≠ 0 := (Real.exp_pos _).ne'
  rw [h1, h2]
  have key : Real.exp t / Real.cosh t / (Real.exp (-t) / Real.cosh t) =
      Real.exp (2 * t) := by
    rw [div_div_div_comm, div_self hc.ne', div_one, ← Real.exp_sub]
    norm_num [two_mul]
  rw [key, Real.log_exp]

theorem sin_latOfMerc_d2r (t : ℝ) : Real.sin (latOfMerc t * d2r) = Real.tanh t := by
  have hpi : Real.pi ≠ 0 := Real.pi_ne_zero
  have harg : latOfMerc t * d2r = Real.arctan (Real.sinh t) := by
    unfold latOfMerc r2d d2r
    field_simp
  rw [harg, sin_arctan_sinh]

/-- Evaluation of `point_to_tile_fraction` at a latitude built with
`latOfMerc`: the `y` coordinate is exactly `2 ^ z * (1/2 - t / (2π))`. -/
theorem ptf_latOfMerc (lon t : ℝ) (z : ℤ) :
    point_to_tile_fraction (lon, latOfMerc t) z =
      (pymod ((2 : ℝ) ^ z * (lon / 360.0 + 0.5)) ((2 : ℝ) ^ z),
        (2 : ℝ) ^ z * (0.5 - t / (2 * Real.pi)), z) := by
  have h2z : (0 : ℝ) < (2 : ℝ) ^ z := zpow_pos (by norm_num) z
  have hnn : ¬ pymod ((2 : ℝ) ^ z * (lon / 360.0 + 0.5)) ((2 : ℝ) ^ z) < 0 :=
    not_lt.mpr (pymod_nonneg h2z)
  have hpi : Real.pi ≠ 0 := Real.pi_ne_zero
  unfold point_to_tile_fraction
  simp only [sin_latOfMerc_d2r, log_tanh_ratio, hnn, if_false]
  have hy : (2 : ℝ) ^ z * (0.5 - 0.25 * (2 * t) / Real.pi) =
      (2 : ℝ) ^ z * (0.5 - t / (2 * Real.pi)) := by
    field_simp
    ring
  rw [hy]

theorem floor_eval {r : ℝ} {n : ℤ} (h1 : (n : ℝ) ≤ r) (h2 : r < n + 1) : ⌊r⌋ = n :=
  Int.floor_eq_iff.mpr ⟨h1, h2⟩

theorem pymod_eval {a b : ℝ} {n : ℤ} (hb : 0 < b) (h1 : (n : ℝ) * b ≤ a)
    (h2 : a < (n : ℝ) * b + b) : pymod a b = a - b * n := by
  unfold pymod
  have hfl : ⌊a / b⌋ = n := by
    refine floor_eval ?_ ?_
    · rw [le_div_iff₀ hb]
      exact h1
    · rw [div_lt_iff₀ hb]
      linarith
  rw [hfl]

/-! ## Claims -/

/-- C6 (amended): for every tile `(x, y, z)` with `0 < z ≤ MAX_ZOOM = 28`,
using the default zoom bounds (`zmin = MIN_ZOOM` for `get_parent`,
`zmax = MAX_ZOOM` for `get_children`), the tile is a member of
`get_children (get_parent t)`.  The bound `z ≤ 28` is forced by the default
`MAX_ZOOM`: `get_children` returns `[]` above it (see the counterexample). -/
theorem parent_child_inverse (x y z : ℤ) (h1 : 0 < z) (h2 : z ≤ 28) :
    (x, y, z) ∈ get_children (get_parent (x, y, z) (some MIN_ZOOM)) (some MAX_ZOOM) := by
  have hpar : get_parent (x, y, z) (some MIN_ZOOM) = (x / 2, y / 2, z - 1) := by
    unfold get_parent MIN_ZOOM
    simp only [decide_eq_true_eq]
    have : ¬ (z - 1 < 0) := by omega
    simp [this]
  rw [hpar]
  unfold get_children MAX_ZOOM
  have hb : ¬ (¬ (28 : ℤ) = 0 ∧ z - 1 + 1 > 28) := by omega
  rw [if_neg (by simpa using hb)]
  simp only [List.mem_cons, List.mem_singleton, Prod.mk.injEq]
  omega

/-- C6 witness: concrete instance of `parent_child_inverse` at `(3, 7, 5)`. -/
theorem parent_child_inverse_holds :
    (0 : ℤ) < 5 ∧ (5 : ℤ) ≤ 28 ∧
      ((3, 7, 5) : Tile) ∈ get_children (get_parent (3, 7, 5) (some MIN_ZOOM)) (some MAX_ZOOM) :=
  ⟨by decide, by decide, parent_child_inverse 3 7 5 (by decide) (by decide)⟩

/-- C6 counterexample: the claim as stated fails for zoom 29: the default
`MAX_ZOOM = 28` makes `get_children` of the zoom-28 parent return `[]`. -/
theorem parent_child_inverse_fails_above_max_zoom :
    (0 : ℤ) < 29 ∧
      ((0, 0, 29) : Tile) ∉
        get_children (get_parent (0, 0, 29) (some MIN_ZOOM)) (some MAX_ZOOM) := by
  decide

/-- C8: for every geometry and every zoom pair `(zmin, zmax)` with
`zmin > zmax`, `tiles` fails with the invalid-zoom-range error raised by
`_parse_zoom` before any tile computation or geometry dispatch: the result
is the error for every geometry, and no partial result is produced. -/
theorem tiles_invalid_zoom_range (geom : Geom) (zmin zmax : ℤ) (h : zmin > zmax) :
    tiles geom (.range zmin zmax) = .error "invalid zoom range: min greater than max" := by
  unfold tiles _parse_zoom
  simp [h]

/-- C8 witness: concrete instance at `zmin = 1 > 0 = zmax`. -/
theorem tiles_invalid_zoom_range_holds :
    (1 : ℤ) > 0 ∧
      tiles (.point (0, 0)) (.range 1 0) =
        .error "invalid zoom range: min greater than max" :=
  ⟨by decide, tiles_invalid_zoom_range (.point (0, 0)) 1 0 (by decide)⟩

/-- C3 counterexample: the claim as stated quantifies over all
`zmin ≤ zmax`, but for `zmin = zmax` the `while` loop of
`_extrapolate_zoom_range` never runs and the output is `[]`, so the input
tile `(0, 0, 0)` of the duplicate-free zoom-0 list `[(0, 0, 0)]` is a
descendant of no output tile at all. -/
theorem extrapolate_fails_at_equal_zooms :
    [((0, 0, 0) : Tile)].Nodup ∧ (0 : ℤ) ≤ 0 ∧
      _extrapolate_zoom_range [((0, 0, 0) : Tile)] (0, 0) = [] ∧
      ¬ ∃ t ∈ _extrapolate_zoom_range [((0, 0, 0) : Tile)] (0, 0),
          isDescendantCell 0 ((0, 0, 0) : Tile) t := by
  refine ⟨by decide, by decide, by decide, ?_⟩
  intro ⟨t, ht, _⟩
  rw [show _extrapolate_zoom_range [((0, 0, 0) : Tile)] (0, 0) = [] from by decide] at ht
  exact absurd ht (List.not_mem_nil t)

/-- C1 (code bug): `tile_to_point` is NOT the inverse of the forward
transform.  The source computes `lon = x / (_2z * 360.0) - 180.0` — dividing
by `2^z * 360` instead of multiplying `x / 2^z` by `360` — so at tile
`(5, 10, 10)` the longitude is `5 / 368640 - 180 ≈ -179.99999` rather than
`(5 / 1024) * 360 - 180 = -178.2421875` (the value the repository's own
`test_tile_to_geojson` expects), and the `x` round trip through
`point_to_tile_fraction` returns `1 / 25920` instead of `5`. -/
theorem tile_to_point_longitude_bug :
    (tile_to_point ((5 : ℝ), 10, 10)).1 = 5 / 368640 - 180 ∧
    (tile_to_point ((5 : ℝ), 10, 10)).1 ≠ ((5 : ℝ) / 2 ^ (10 : ℕ)) * 360 - 180 ∧
    (point_to_tile_fraction (tile_to_point ((5 : ℝ), 10, 10)) 10).1 = 1 / 25920 ∧
    ((1 : ℝ) / 25920) ≠ 5 := by
  have hlon : (tile_to_point ((5 : ℝ), 10, 10)).1 = 5 / 368640 - 180 := by
    unfold tile_to_point
    norm_num
  refine ⟨hlon, ?_, ?_, by norm_num⟩
  · rw [hlon]
    norm_num
  · unfold point_to_tile_fraction
    simp only [hlon]
    have hX : (2 : ℝ) ^ (10 : ℤ) * ((5 / 368640 - 180) / 360.0 + 0.5) = 1 / 25920 := by
      norm_num
    rw [hX]
    have h2z : ((2 : ℝ) ^ (10 : ℤ)) = 1024 := by norm_num
    rw [h2z]
    have hm : pymod (1 / 25920) 1024 = 1 / 25920 - 1024 * ((0 : ℤ) : ℝ) := by
      refine pymod_eval (by norm_num) (by norm_num) (by norm_num)
    rw [hm]
    norm_num

/-! ### Numeric bounds for latitude 85 (used by claim C4) -/

theorem sin85_bounds : 0.99 < Real.sin (85 * d2r) ∧ Real.sin (85 * d2r) < 0.996196 := by
  have h85 : (85 : ℝ) * d2r = Real.pi / 2 - Real.pi / 36 := by
    unfold d2r
    ring
  rw [h85, Real.sin_pi_div_two_sub]
  have hpl : (3.141592 : ℝ) < Real.pi := Real.pi_gt_d6
  have hpu : Real.pi < 3.141593 := Real.pi_lt_d6
  have hxl : (0.0872664 : ℝ) < Real.pi / 36 := by linarith
  have hxu : Real.pi / 36 < 0.0872665 := by linarith
  have hxpos : (0 : ℝ) < Real.pi / 36 := by linarith
  have habs : |Real.pi / 36| = Real.pi / 36 := abs_of_pos hxpos
  have hx1 : |Real.pi / 36| ≤ 1 := by
    rw [habs]
    linarith
  have hb := Real.cos_bound hx1
  rw [habs] at hb
  obtain ⟨hb1, hb2⟩ := abs_le.mp hb
  have hsq_l : (0.0872664 : ℝ) ^ 2 < (Real.pi / 36) ^ 2 := by nlinarith
  have hsq_u : (Real.pi / 36) ^ 2 < (0.0872665 : ℝ) ^ 2 := by nlinarith
  have hp4 : (Real.pi / 36) ^ 4 < (0.0872665 : ℝ) ^ 4 := by nlinarith
  have hp4n : (0 : ℝ) ≤ (Real.pi / 36) ^ 4 := by positivity
  constructor
  · nlinarith
  · nlinarith

theorem log85_bounds :
    Real.pi < Real.log ((1 + Real.sin (85 * d2r)) / (1 - Real.sin (85 * d2r))) ∧
      Real.log ((1 + Real.sin (85 * d2r)) / (1 - Real.sin (85 * d2r))) < 2 * Real.pi := by
  obtain ⟨hs1, hs2⟩ := sin85_bounds
  set s := Real.sin (85 * d2r) with hs
  have h1ms : (0 : ℝ) < 1 - s := by linarith
  have h1ps : (0 : ℝ) < 1 + s := by linarith
  have hratio_pos : (0 : ℝ) < (1 + s) / (1 - s) := div_pos h1ps h1ms
  have he1l : (2.7182818283 : ℝ) < Real.exp 1 := Real.exp_one_gt_d9
  have he1u : Real.exp 1 < 2.7182818286 := Real.exp_one_lt_d9
  constructor
  · rw [Real.lt_log_iff_exp_lt hratio_pos]
    have hlow : (199 : ℝ) < (1 + s) / (1 - s) := by
      rw [lt_div_iff₀ h1ms]
      nlinarith
    have hexp4 : Real.exp 4 < 55 := by
      have h4 : Real.exp 4 = Real.exp 1 ^ 4 := by
        rw [← Real.exp_nat_mul]
        norm_num
      rw [h4]
      have : Real.exp 1 ^ 4 < (2.7182818286 : ℝ) ^ 4 :=
        pow_lt_pow_left₀ he1u (Real.exp_pos 1).le (by norm_num)
      nlinarith
    have hpi4 : Real.exp Real.pi < Real.exp 4 :=
      Real.exp_lt_exp.mpr Real.pi_lt_four
    linarith
  · rw [Real.log_lt_iff_lt_exp hratio_pos]
    have hhigh : (1 + s) / (1 - s) < 525 := by
      rw [div_lt_iff₀ h1ms]
      nlinarith
    have h2pi : (6.283184 : ℝ) < 2 * Real.pi := by
      have := Real.pi_gt_d6
      linarith
    have hexp6 : (403.428792 : ℝ) < Real.exp 6 := by
      have h6 : Real.exp 6 = Real.exp 1 ^ 6 := by
        rw [← Real.exp_nat_mul]
        norm_num
      rw [h6]
      have : (2.7182818283 : ℝ) ^ 6 < Real.exp 1 ^ 6 :=
        pow_lt_pow_left₀ he1l (by norm_num) (by norm_num)
      nlinarith
    have hexpq : (1.303230 : ℝ) < Real.exp 0.283184 := by
      have hsplit : Real.exp (0.283184 : ℝ) = Real.exp 0.141592 * Real.exp 0.141592 := by
        rw [← Real.exp_add]
        norm_num
      have hq : (1.141592 : ℝ) ≤ Real.exp 0.141592 := by
        have := Real.add_one_le_exp (0.141592 : ℝ)
        linarith
      rw [hsplit]
      nlinarith
    have hexp2pi : (525 : ℝ) < Real.exp 6.283184 := by
      have hsplit : Real.exp (6.283184 : ℝ) = Real.exp 6 * Real.exp 0.283184 := by
        rw [← Real.exp_add]
        norm_num
      rw [hsplit]
      have he6 : (0 : ℝ) < Real.exp 6 := Real.exp_pos 6
      nlinarith
    have hmono : Real.exp 6.283184 < Real.exp (2 * Real.pi) :=
      Real.exp_lt_exp.mpr h2pi
    linarith

/-- The `y` coordinate computed by `point_to_tile_fraction` for latitude 85
at zoom 2 lies in `[0, 1)`, so its floor is `0`. -/
theorem floor_y85 :
    ⌊(2 : ℝ) ^ (2 : ℤ) *
        (0.5 - 0.25 * Real.log ((1 + Real.sin (85 * d2r)) / (1 - Real.sin (85 * d2r))) /
          Real.pi)⌋ = 0 := by
  obtain ⟨hL1, hL2⟩ := log85_bounds
  set L := Real.log ((1 + Real.sin (85 * d2r)) / (1 - Real.sin (85 * d2r))) with hL
  have hpi : (0 : ℝ) < Real.pi := Real.pi_pos
  have hy : (2 : ℝ) ^ (2 : ℤ) * (0.5 - 0.25 * L / Real.pi) = 2 - L / Real.pi := by
    have : ((2 : ℝ) ^ (2 : ℤ)) = 4 := by norm_num
    rw [this]
    ring
  rw [hy]
  have hd1 : (1 : ℝ) < L / Real.pi := (one_lt_div hpi).mpr hL1
  have hd2 : L / Real.pi < 2 := by
    rw [div_lt_iff₀ hpi]
    linarith
  refine floor_eval ?_ ?_
  · push_cast
    linarith
  · push_cast
    linarith

/-- C4 counterexample: at latitude 90 the source computes `sin(90·d2r) = 1`,
so `(1 + sin) / (1 - sin)` raises `ZeroDivisionError`, and at latitude -90
the argument of `log` is exactly `0`, so `math.log` raises `ValueError`: on
these finite points no `x` is returned at all, refuting the claim for every
point with finite coordinates. -/
theorem point_to_tile_fraction_pole_error :
    point_to_tile_fraction_checked ((0 : ℝ), 90) 2 = none ∧
    point_to_tile_fraction_checked ((0 : ℝ), -90) 2 = none ∧
    1 - Real.sin ((90 : ℝ) * d2r) = 0 ∧
    (1 + Real.sin ((-90 : ℝ) * d2r)) / (1 - Real.sin ((-90 : ℝ) * d2r)) = 0 := by
  have hsin : Real.sin ((90 : ℝ) * d2r) = 1 := by
    rw [show (90 : ℝ) * d2r = Real.pi / 2 from by unfold d2r; ring]
    exact Real.sin_pi_div_two
  have hsinn : Real.sin ((-90 : ℝ) * d2r) = -1 := by
    rw [show (-90 : ℝ) * d2r = -(Real.pi / 2) from by unfold d2r; ring]
    rw [Real.sin_neg, Real.sin_pi_div_two]
  refine ⟨?_, ?_, by rw [hsin]; norm_num, by rw [hsinn]; norm_num⟩
  · unfold point_to_tile_fraction_checked
    simp only
    rw [if_pos (show 1 - Real.sin ((90 : ℝ) * d2r) = 0 from by rw [hsin]; norm_num)]
  · unfold point_to_tile_fraction_checked
    simp only
    rw [if_neg (show ¬ 1 - Real.sin ((-90 : ℝ) * d2r) = 0 from by
          rw [hsinn]; norm_num),
      if_pos (show (1 + Real.sin ((-90 : ℝ) * d2r)) /
            (1 - Real.sin ((-90 : ℝ) * d2r)) ≤ 0 from by rw [hsinn]; norm_num)]

/-- C4 (amended: away from the two polar latitudes, where the source raises
instead of returning): whenever the argument of the `log` in the source is
defined — `1 - sin(lat·d2r) ≠ 0` and `(1 + sin)/(1 - sin) > 0` — the
function returns its tile (`point_to_tile_fraction_checked` yields `some`)
and the returned `x` satisfies `0 ≤ x < 2^z` (longitudes wrap onto the grid
via the float modulo), while `y` is not wrapped; in particular
`point_to_tile (-185, 85) 2 = (3, 0, 2)` and
`point_to_tile (185, 85) 2 = (0, 0, 2)`. -/
theorem point_to_tile_fraction_x_wrapped :
    (∀ (lon lat : ℝ) (z : ℤ),
        1 - Real.sin (lat * d2r) ≠ 0 →
        ¬ (1 + Real.sin (lat * d2r)) / (1 - Real.sin (lat * d2r)) ≤ 0 →
          point_to_tile_fraction_checked (lon, lat) z =
              some (point_to_tile_fraction (lon, lat) z) ∧
            0 ≤ (point_to_tile_fraction (lon, lat) z).1 ∧
            (point_to_tile_fraction (lon, lat) z).1 < 2 ^ z) ∧
    point_to_tile ((-185 : ℝ), 85) 2 = (3, 0, 2) ∧
    point_to_tile ((185 : ℝ), 85) 2 = (0, 0, 2) := by
  have h4 : ((2 : ℝ) ^ (2 : ℤ)) = 4 := by norm_num
  refine ⟨fun lon lat z h1 h2 => ?_, ?_, ?_⟩
  · have hb : (0 : ℝ) < (2 : ℝ) ^ z := zpow_pos (by norm_num) z
    have hbounds : 0 ≤ (point_to_tile_fraction (lon, lat) z).1 ∧
        (point_to_tile_fraction (lon, lat) z).1 < 2 ^ z := by
      unfold point_to_tile_fraction
      simp only
      rw [if_neg (not_lt.mpr (pymod_nonneg hb))]
      exact ⟨pymod_nonneg hb, pymod_lt hb⟩
    refine ⟨?_, hbounds.1, hbounds.2⟩
    unfold point_to_tile_fraction_checked
    simp only
    rw [if_neg h1, if_neg h2]
  · unfold point_to_tile
    unfold point_to_tile_fraction
    simp only
    have hX : (2 : ℝ) ^ (2 : ℤ) * ((-185) / 360.0 + 0.5) = -(1 / 18) := by
      rw [h4]
      norm_num
    rw [hX, h4]
    have hm : pymod (-(1 / 18)) 4 = -(1 / 18) - 4 * ((-1 : ℤ) : ℝ) := by
      refine pymod_eval (by norm_num) (by norm_num) (by norm_num)
    have hm' : pymod (-(1 / 18) : ℝ) 4 = 71 / 18 := by
      rw [hm]
      norm_num
    rw [hm']
    rw [if_neg (by norm_num : ¬ (71 / 18 : ℝ) < 0)]
    have hfx : ⌊(71 / 18 : ℝ)⌋ = 3 := floor_eval (by norm_num) (by norm_num)
    have hfy := floor_y85
    rw [h4] at hfy
    rw [hfx, hfy]
  · unfold point_to_tile
    unfold point_to_tile_fraction
    simp only
    have hX : (2 : ℝ) ^ (2 : ℤ) * ((185 : ℝ) / 360.0 + 0.5) = 73 / 18 := by
      rw [h4]
      norm_num
    rw [hX, h4]
    have hm : pymod ((73 / 18 : ℝ)) 4 = 73 / 18 - 4 * ((1 : ℤ) : ℝ) := by
      refine pymod_eval (by norm_num) (by norm_num) (by norm_num)
    have hm' : pymod ((73 / 18 : ℝ)) 4 = 1 / 18 := by
      rw [hm]
      norm_num
    rw [hm']
    rw [if_neg (by norm_num : ¬ (1 / 18 : ℝ) < 0)]
    have hfx : ⌊(1 / 18 : ℝ)⌋ = 0 := by
      refine floor_eval (by norm_num) (by norm_num)
    have hfy := floor_y85
    rw [h4] at hfy
    rw [hfx, hfy]

/-- C4 witness: at the origin point the non-raising guards hold, the
checked projection returns its tile, and the wrapped `x` lies in `[0, 4)`
at zoom 2. -/
theorem point_to_tile_fraction_x_wrapped_holds :
    (1 - Real.sin ((0 : ℝ) * d2r) ≠ 0 ∧
      ¬ (1 + Real.sin ((0 : ℝ) * d2r)) / (1 - Real.sin ((0 : ℝ) * d2r)) ≤ 0) ∧
    (point_to_tile_fraction_checked ((0 : ℝ), (0 : ℝ)) 2 =
        some (point_to_tile_fraction ((0 : ℝ), (0 : ℝ)) 2) ∧
      0 ≤ (point_to_tile_fraction ((0 : ℝ), (0 : ℝ)) 2).1 ∧
      (point_to_tile_fraction ((0 : ℝ), (0 : ℝ)) 2).1 < 2 ^ (2 : ℤ)) := by
  have h1 : 1 - Real.sin ((0 : ℝ) * d2r) ≠ 0 := by
    rw [zero_mul, Real.sin_zero]
    norm_num
  have h2 : ¬ (1 + Real.sin ((0 : ℝ) * d2r)) / (1 - Real.sin ((0 : ℝ) * d2r)) ≤ 0 := by
    rw [zero_mul, Real.sin_zero]
    norm_num
  exact ⟨⟨h1, h2⟩, point_to_tile_fraction_x_wrapped.1 0 0 2 h1 h2⟩

/-! ### Degenerate segments (claim C9) -/

theorem processSegment_degenerate (zoom : ℤ) (p0 p1 : Point) (st : LineState)
    (h : point_to_tile_fraction p0 zoom = point_to_tile_fraction p1 zoom) :
    processSegment zoom p0 p1 st = st := by
  unfold processSegment
  rw [h]
  simp

/-- C9: a consecutive coordinate pair whose projected fractional tile
coordinates coincide is skipped: it leaves the whole traversal state (tile
set, ring, previous position) unchanged and raises no error; consequently a
line all of whose segments are degenerate — or with fewer than two
coordinates — yields an empty tile set and an empty ring. -/
theorem degenerate_segments_skipped :
    (∀ (zoom : ℤ) (p0 p1 : Point) (st : LineState),
        point_to_tile_fraction p0 zoom = point_to_tile_fraction p1 zoom →
          processSegment zoom p0 p1 st = st) ∧
    (∀ (line : List Point) (zoom : ℤ),
        (∀ pq ∈ line.zip line.tail,
            point_to_tile_fraction pq.1 zoom = point_to_tile_fraction pq.2 zoom) →
          line_cover line zoom = (∅, [])) := by
  refine ⟨processSegment_degenerate, fun line zoom hdeg => ?_⟩
  unfold line_cover
  have hfold : ∀ (l : List (Point × Point)) (st : LineState),
      (∀ pq ∈ l,
          point_to_tile_fraction pq.1 zoom = point_to_tile_fraction pq.2 zoom) →
        l.foldl (fun st pq => processSegment zoom pq.1 pq.2 st) st = st := by
    intro l
    induction l with
    | nil => intro st _; rfl
    | cons hd tl ih =>
        intro st h
        rw [List.foldl_cons,
          processSegment_degenerate zoom hd.1 hd.2 st (h hd (List.mem_cons_self hd tl))]
        exact ih st fun pq hpq => h pq (List.mem_cons_of_mem _ hpq)
  rw [hfold _ _ hdeg]

/-- C9 witness: the two-point line that repeats the origin, at zoom 1. -/
theorem degenerate_segments_skipped_holds :
    (∀ pq ∈ ([((0 : ℝ), (0 : ℝ)), ((0 : ℝ), (0 : ℝ))] : List Point).zip
        ([((0 : ℝ), (0 : ℝ)), ((0 : ℝ), (0 : ℝ))] : List Point).tail,
        point_to_tile_fraction pq.1 1 = point_to_tile_fraction pq.2 1) ∧
      line_cover [((0 : ℝ), (0 : ℝ)), ((0 : ℝ), (0 : ℝ))] 1 = (∅, []) := by
  have hp : ∀ pq ∈ ([((0 : ℝ), (0 : ℝ)), ((0 : ℝ), (0 : ℝ))] : List Point).zip
      ([((0 : ℝ), (0 : ℝ)), ((0 : ℝ), (0 : ℝ))] : List Point).tail,
      point_to_tile_fraction pq.1 1 = point_to_tile_fraction pq.2 1 := by
    intro pq hpq
    simp only [List.tail_cons, List.zip_cons_cons, List.zip_nil_right,
      List.mem_singleton] at hpq
    rw [hpq]
  exact ⟨hp, degenerate_segments_skipped.2 _ 1 hp⟩

/-! ### Zoom tagging of emitted tiles (claim C10) -/

theorem lineLoop_hash_zoom (zoom sx sy : ℤ) (tdx tdy : EReal) :
    ∀ (fuel : ℕ) (x y : ℤ) (tmx tmy : EReal) (hash : Finset Tile)
      (ring : List (ℤ × ℤ)) (py : ℤ),
      (∀ t ∈ hash, t.2.2 = zoom) →
      ∀ t ∈ (lineLoop zoom sx sy tdx tdy fuel x y tmx tmy hash ring py).1,
        t.2.2 = zoom := by
  intro fuel
  induction fuel with
  | zero => intro x y tmx tmy hash ring py hh t ht; exact hh t ht
  | succ n ih =>
      intro x y tmx tmy hash ring py hh t ht
      rw [lineLoop] at ht
      by_cases hc : tmx < 1 ∨ tmy < 1
      · rw [if_pos hc] at ht
        refine ih _ _ _ _ _ _ _ ?_ t ht
        intro u hu
        rcases Finset.mem_insert.mp hu with h | h
        · rw [h]
        · exact hh u h
      · rw [if_neg hc] at ht
        exact hh t ht

theorem insert_hash_zoom (zoom a b : ℤ) (s : Finset Tile)
    (hs : ∀ t ∈ s, t.2.2 = zoom) :
    ∀ t ∈ insert ((a, b, zoom) : Tile) s, t.2.2 = zoom := by
  intro u hu
  rcases Finset.mem_insert.mp hu with h | h
  · rw [h]
  · exact hs u h

theorem processSegment_hash_zoom (zoom : ℤ) (p0 p1 : Point) (st : LineState)
    (hh : ∀ t ∈ st.hash, t.2.2 = zoom) :
    ∀ t ∈ (processSegment zoom p0 p1 st).hash, t.2.2 = zoom := by
  rcases hsp : st.prev with _ | ⟨pxv, pyv⟩ <;> simp only [processSegment, hsp] <;>
    by_cases hdeg : ((point_to_tile_fraction p1 zoom).1 -
        (point_to_tile_fraction p0 zoom).1 = 0 ∧
      (point_to_tile_fraction p1 zoom).2.1 -
        (point_to_tile_fraction p0 zoom).2.1 = 0)
  · rw [if_pos hdeg]
    exact hh
  · rw [if_neg hdeg]
    exact lineLoop_hash_zoom zoom _ _ _ _ _ _ _ _ _ _ _ _
      (insert_hash_zoom zoom _ _ _ hh)
  · rw [if_pos hdeg]
    exact hh
  · rw [if_neg hdeg]
    by_cases hne : (⌊(point_to_tile_fraction p0 zoom).1⌋ ≠ pxv ∨
        ⌊(point_to_tile_fraction p0 zoom).2.1⌋ ≠ pyv)
    · rw [if_pos hne]
      exact lineLoop_hash_zoom zoom _ _ _ _ _ _ _ _ _ _ _ _
        (insert_hash_zoom zoom _ _ _ hh)
    · rw [if_neg hne]
      exact lineLoop_hash_zoom zoom _ _ _ _ _ _ _ _ _ _ _ _ hh

theorem line_cover_hash_zoom (line : List Point) (zoom : ℤ) :
    ∀ t ∈ (line_cover line zoom).1, t.2.2 = zoom := by
  unfold line_cover
  have hfold : ∀ (l : List (Point × Point)) (st : LineState),
      (∀ t ∈ st.hash, t.2.2 = zoom) →
      ∀ t ∈ (l.foldl (fun st pq => processSegment zoom pq.1 pq.2 st) st).hash,
        t.2.2 = zoom := by
    intro l
    induction l with
    | nil => intro st h; exact h
    | cons hd tl ih =>
        intro st h
        rw [List.foldl_cons]
        exact ih _ (processSegment_hash_zoom zoom hd.1 hd.2 st h)
  exact hfold _ _ (by intro t ht; exact absurd ht (Finset.not_mem_empty t))

theorem scanRange_zoom (hash : Finset Tile) (zoom y : ℤ) :
    ∀ (n : ℕ) (x : ℤ), ∀ t ∈ scanRange hash zoom y n x, t.2.2 = zoom := by
  intro n
  induction n with
  | zero => intro x t ht; exact absurd ht (List.not_mem_nil t)
  | succ m ih =>
      intro x t ht
      rw [scanRange] at ht
      rcases List.mem_append.mp ht with h | h
      · by_cases hmem : ((x, y, zoom) : Tile) ∉ hash
        · rw [if_pos hmem] at h
          rw [List.mem_singleton.mp h]
        · rw [if_neg hmem] at h
          exact absurd h (List.not_mem_nil t)
      · exact ih _ t h

theorem scanlineFill_zoom (hash : Finset Tile) (zoom : ℤ) :
    ∀ (ints : List (ℤ × ℤ)), ∀ t ∈ scanlineFill hash zoom ints, t.2.2 = zoom
  | [] => by intro t ht; exact absurd ht (List.not_mem_nil t)
  | [a] => by
      intro t ht
      rw [scanlineFill] at ht
      exact absurd ht (List.not_mem_nil t)
  | a :: b :: rest => by
      intro t ht
      rw [scanlineFill] at ht
      rcases List.mem_append.mp ht with h | h
      · exact scanRange_zoom hash zoom a.2 _ _ t h
      · exact scanlineFill_zoom hash zoom rest t h

theorem polygon_cover_zoom (coords : List (List Point)) (zoom : ℤ) :
    (∀ t ∈ (polygon_cover coords zoom).1, t.2.2 = zoom) ∧
      ∀ t ∈ (polygon_cover coords zoom).2, t.2.2 = zoom := by
  have hrings : ∀ t ∈ (polygonRings coords zoom).1, t.2.2 = zoom := by
    unfold polygonRings
    have hfold : ∀ (l : List (List Point)) (acc : Finset Tile × List (ℤ × ℤ)),
        (∀ t ∈ acc.1, t.2.2 = zoom) →
        ∀ t ∈ (l.foldl
            (fun acc line =>
              let lc := line_cover line zoom
              (acc.1 ∪ lc.1, acc.2 ++ ringIntersections lc.2)) acc).1,
          t.2.2 = zoom := by
      intro l
      induction l with
      | nil => intro acc h; exact h
      | cons hd tl ih =>
          intro acc h
          rw [List.foldl_cons]
          refine ih _ ?_
          intro t ht
          rcases Finset.mem_union.mp ht with h1 | h1
          · exact h t h1
          · exact line_cover_hash_zoom hd zoom t h1
    exact hfold _ _ (by intro t ht; exact absurd ht (Finset.not_mem_empty t))
  constructor
  · exact hrings
  · intro t ht
    exact scanlineFill_zoom _ zoom _ t ht

theorem dispatch_zoom (geom : Geom) (z : ℤ) :
    (∀ t ∈ (dispatch geom z).1, t.2.2 = z) ∧
      (∀ t ∈ (dispatch geom z).2, t.2.2 = z) := by
  cases geom with
  | point c =>
      refine ⟨fun t ht => absurd ht (List.not_mem_nil t), fun t ht => ?_⟩
      rw [Finset.mem_singleton.mp ht]
      rfl
  | multiPoint cs =>
      refine ⟨fun t ht => absurd ht (List.not_mem_nil t), ?_⟩
      have hfold : ∀ (l : List Point) (acc : Finset Tile),
          (∀ t ∈ acc, t.2.2 = z) →
          ∀ t ∈ l.foldl (fun h c => h ∪ cover_point c z) acc, t.2.2 = z := by
        intro l
        induction l with
        | nil => intro acc h; exact h
        | cons hd tl ih =>
            intro acc h
            rw [List.foldl_cons]
            refine ih _ ?_
            intro t ht
            rcases Finset.mem_union.mp ht with h1 | h1
            · exact h t h1
            · rw [Finset.mem_singleton.mp h1]
              rfl
      exact hfold cs ∅ (fun t ht => absurd ht (Finset.not_mem_empty t))
  | lineString cs =>
      exact ⟨fun t ht => absurd ht (List.not_mem_nil t), line_cover_hash_zoom cs z⟩
  | multiLineString ls =>
      refine ⟨fun t ht => absurd ht (List.not_mem_nil t), ?_⟩
      have hfold : ∀ (l : List (List Point)) (acc : Finset Tile),
          (∀ t ∈ acc, t.2.2 = z) →
          ∀ t ∈ l.foldl (fun h li => h ∪ (line_cover li z).1) acc, t.2.2 = z := by
        intro l
        induction l with
        | nil => intro acc h; exact h
        | cons hd tl ih =>
            intro acc h
            rw [List.foldl_cons]
            refine ih _ ?_
            intro t ht
            rcases Finset.mem_union.mp ht with h1 | h1
            · exact h t h1
            · exact line_cover_hash_zoom hd z t h1
      exact hfold ls ∅ (fun t ht => absurd ht (Finset.not_mem_empty t))
  | polygon rs =>
      exact ⟨(polygon_cover_zoom rs z).2, (polygon_cover_zoom rs z).1⟩
  | multiPolygon ps =>
      have hfold : ∀ (l : List (List (List Point))) (acc : List Tile × Finset Tile),
          (∀ t ∈ acc.1, t.2.2 = z) → (∀ t ∈ acc.2, t.2.2 = z) →
          (∀ t ∈ (l.foldl
              (fun acc p =>
                let pc := polygon_cover p z
                (acc.1 ++ pc.2, acc.2 ∪ pc.1)) acc).1, t.2.2 = z) ∧
            (∀ t ∈ (l.foldl
              (fun acc p =>
                let pc := polygon_cover p z
                (acc.1 ++ pc.2, acc.2 ∪ pc.1)) acc).2, t.2.2 = z) := by
        intro l
        induction l with
        | nil => intro acc h1 h2; exact ⟨h1, h2⟩
        | cons hd tl ih =>
            intro acc h1 h2
            rw [List.foldl_cons]
            refine ih _ ?_ ?_
            · intro t ht
              rcases List.mem_append.mp ht with hm | hm
              · exact h1 t hm
              · exact (polygon_cover_zoom hd z).2 t hm
            · intro t ht
              rcases Finset.mem_union.mp ht with hm | hm
              · exact h2 t hm
              · exact (polygon_cover_zoom hd z).1 t hm
      exact hfold ps ([], ∅) (fun t ht => absurd ht (List.not_mem_nil t))
        (fun t ht => absurd ht (Finset.not_mem_empty t))

/-- C10: for every supported geometry and every single integer zoom `z`,
every tile in the list returned by `tiles` carries zoom component `z`: all
covering primitives only emit tiles tagged with the requested zoom. -/
theorem tiles_single_zoom (geom : Geom) (z : ℤ) (l : List Tile)
    (h : tiles geom (ZoomInput.fixed z) = .ok l) :
    ∀ t ∈ l, t.2.2 = z := by
  unfold tiles _parse_zoom _merge_tile_data at h
  simp only [ne_eq, not_true_eq_false, if_false, Except.ok.injEq] at h
  subst h
  intro t ht
  rcases List.mem_append.mp ht with h1 | h1
  · exact (dispatch_zoom geom z).1 t h1
  · exact (dispatch_zoom geom z).2 t (Finset.mem_toList.mp h1)

theorem point_to_tile_origin : point_to_tile ((0 : ℝ), 0) 2 = (2, 2, 2) := by
  unfold point_to_tile point_to_tile_fraction
  simp only [zero_mul, Real.sin_zero]
  have hX : (2 : ℝ) ^ (2 : ℤ) * ((0 : ℝ) / 360.0 + 0.5) = 2 := by norm_num
  have hY : (2 : ℝ) ^ (2 : ℤ) *
      (0.5 - 0.25 * Real.log ((1 + 0) / (1 - 0)) / Real.pi) = 2 := by
    rw [show ((1 : ℝ) + 0) / (1 - 0) = 1 by norm_num, Real.log_one]
    norm_num
  rw [hX, hY]
  have h2z : ((2 : ℝ) ^ (2 : ℤ)) = 4 := by norm_num
  rw [h2z]
  have hm : pymod (2 : ℝ) 4 = 2 - 4 * ((0 : ℤ) : ℝ) :=
    pymod_eval (by norm_num) (by norm_num) (by norm_num)
  have hm' : pymod (2 : ℝ) 4 = 2 := by rw [hm]; norm_num
  rw [hm']
  rw [if_neg (by norm_num : ¬ (2 : ℝ) < 0)]
  have hf : ⌊(2 : ℝ)⌋ = 2 := floor_eval (by norm_num) (by norm_num)
  rw [hf]

/-- C10 witness: covering the origin point at zoom 2 returns `[(2, 2, 2)]`
and every returned tile is at zoom 2. -/
theorem tiles_single_zoom_holds :
    tiles (.point ((0 : ℝ), 0)) (ZoomInput.fixed 2) = .ok [((2, 2, 2) : Tile)] ∧
      ∀ t ∈ [((2, 2, 2) : Tile)], t.2.2 = 2 := by
  have key : tiles (.point ((0 : ℝ), 0)) (ZoomInput.fixed 2) = .ok [((2, 2, 2) : Tile)] := by
    unfold tiles _parse_zoom dispatch cover_point _merge_tile_data
    simp [point_to_tile_origin]
    exact point_to_tile_origin
  exact ⟨key, tiles_single_zoom _ 2 _ key⟩

/-! ### Scanline fill membership (claim C5) -/

theorem scanRange_mem (hash : Finset Tile) (zoom y : ℤ) :
    ∀ (n : ℕ) (x0 : ℤ) (t : Tile),
      t ∈ scanRange hash zoom y n x0 ↔
        ∃ x : ℤ, t = (x, y, zoom) ∧ x0 ≤ x ∧ x < x0 + n ∧
          ((x, y, zoom) : Tile) ∉ hash := by
  intro n
  induction n with
  | zero =>
      intro x0 t
      rw [scanRange]
      simp only [List.not_mem_nil, false_iff]
      rintro ⟨x, _, h1, h2, _⟩
      push_cast at h2
      omega
  | succ m ih =>
      intro x0 t
      rw [scanRange, List.mem_append, ih (x0 + 1)]
      constructor
      · rintro (h | ⟨x, rfl, h1, h2, h3⟩)
        · by_cases hm : ((x0, y, zoom) : Tile) ∉ hash
          · rw [if_pos hm, List.mem_singleton] at h
            refine ⟨x0, h, le_refl _, ?_, hm⟩
            push_cast
            omega
          · rw [if_neg hm] at h
            exact absurd h (List.not_mem_nil t)
        · refine ⟨x, rfl, by omega, ?_, h3⟩
          push_cast at h2 ⊢
          omega
      · rintro ⟨x, rfl, h1, h2, h3⟩
        by_cases hx : x = x0
        · subst hx
          left
          rw [if_pos h3]
          exact List.mem_singleton.mpr rfl
        · right
          refine ⟨x, rfl, by omega, ?_, h3⟩
          push_cast at h2 ⊢
          omega

theorem scanlineFill_mem (hash : Finset Tile) (zoom : ℤ) :
    ∀ (ints : List (ℤ × ℤ)) (t : Tile),
      t ∈ scanlineFill hash zoom ints ↔
        ∃ i : ℕ, 2 * i + 1 < ints.length ∧
          ∃ x : ℤ, t = (x, (ints.getD (2 * i) (0, 0)).2, zoom) ∧
            (ints.getD (2 * i) (0, 0)).1 < x ∧
            x < (ints.getD (2 * i + 1) (0, 0)).1 ∧
            ((x, (ints.getD (2 * i) (0, 0)).2, zoom) : Tile) ∉ hash
  | [] => by
      intro t
      rw [scanlineFill]
      simp only [List.not_mem_nil, List.length_nil, false_iff]
      rintro ⟨i, hi, _⟩
      omega
  | [a] => by
      intro t
      rw [scanlineFill]
      simp only [List.not_mem_nil, List.length_singleton, false_iff]
      rintro ⟨i, hi, _⟩
      omega
  | a :: b :: rest => by
      intro t
      have hg1 : ∀ j : ℕ, (a :: b :: rest).getD (2 * (j + 1)) (0, 0) =
          rest.getD (2 * j) (0, 0) := by
        intro j
        rw [show 2 * (j + 1) = (2 * j + 1) + 1 by omega]
        rw [List.getD_cons_succ, List.getD_cons_succ]
      have hg2 : ∀ j : ℕ, (a :: b :: rest).getD (2 * (j + 1) + 1) (0, 0) =
          rest.getD (2 * j + 1) (0, 0) := by
        intro j
        rw [show 2 * (j + 1) + 1 = (2 * j + 2) + 1 by omega]
        rw [List.getD_cons_succ, show (2 * j + 2 : ℕ) = (2 * j + 1) + 1 by omega,
          List.getD_cons_succ]
      have hlen : (a :: b :: rest).length = rest.length + 2 := by
        rw [List.length_cons, List.length_cons]
      rw [scanlineFill, List.mem_append, scanRange_mem,
        scanlineFill_mem hash zoom rest t]
      constructor
      · rintro (⟨x, rfl, h1, h2, h3⟩ | ⟨i, hi, x, rfl, h1, h2, h3⟩)
        · refine ⟨0, by rw [hlen]; omega, x, rfl, ?_, ?_, h3⟩
          · show a.1 < x
            omega
          · show x < b.1
            omega
        · refine ⟨i + 1, by rw [hlen]; omega, x, ?_, ?_, ?_, ?_⟩
          · simp only [hg1]
          · simp only [hg1]
            exact h1
          · simp only [hg2]
            exact h2
          · simp only [hg1]
            exact h3
      · rintro ⟨i, hi, x, rfl, h1, h2, h3⟩
        cases i with
        | zero =>
            left
            refine ⟨x, rfl, ?_, ?_, ?_⟩
            · have h1' : a.1 < x := h1
              omega
            · have h2' : x < b.1 := h2
              omega
            · exact h3
        | succ j =>
            right
            simp only [hg1, hg2] at h1 h2 h3 ⊢
            rw [hlen] at hi
            exact ⟨j, by omega, x, rfl, h1, h2, h3⟩

/-- C5: under the precondition that the recorded intersections pair up
evenly per scanline (even count, and each consecutive sorted pair shares
one `y`), the interior tile list emitted by `polygon_cover` consists
exactly of the tiles `(x, y, zoom)` such that, for some consecutive sorted
pair at scanline `y`, `x` lies strictly between the pair's two `x` values
and the tile is not already in the border tile set. -/
theorem polygon_cover_scanline (coords : List (List Point)) (zoom : ℤ)
    (heven : (sortedIntersections coords zoom).length % 2 = 0)
    (hpair : ∀ i : ℕ, 2 * i + 1 < (sortedIntersections coords zoom).length →
      ((sortedIntersections coords zoom).getD (2 * i) (0, 0)).2 =
        ((sortedIntersections coords zoom).getD (2 * i + 1) (0, 0)).2) :
    ∀ t : Tile,
      t ∈ (polygon_cover coords zoom).2 ↔
        ∃ i : ℕ, 2 * i + 1 < (sortedIntersections coords zoom).length ∧
          ∃ x : ℤ, t = (x, ((sortedIntersections coords zoom).getD (2 * i) (0, 0)).2, zoom) ∧
            ((sortedIntersections coords zoom).getD (2 * i) (0, 0)).1 < x ∧
            x < ((sortedIntersections coords zoom).getD (2 * i + 1) (0, 0)).1 ∧
            t ∉ (polygon_cover coords zoom).1 := by
  intro t
  show t ∈ scanlineFill (polygonRings coords zoom).1 zoom (sortedIntersections coords zoom) ↔ _
  rw [scanlineFill_mem]
  constructor
  · rintro ⟨i, hi, x, rfl, h1, h2, h3⟩
    exact ⟨i, hi, x, rfl, h1, h2, h3⟩
  · rintro ⟨i, hi, x, rfl, h1, h2, h3⟩
    exact ⟨i, hi, x, rfl, h1, h2, h3⟩

/-- C5 witness: the empty polygon at zoom 0 — the intersection list is
empty (evenly paired), and no interior tile is emitted. -/
theorem polygon_cover_scanline_holds :
    (sortedIntersections [] 0).length % 2 = 0 ∧
      ¬ ((0, 0, 0) : Tile) ∈ (polygon_cover [] 0).2 := by
  have heven : (sortedIntersections [] 0).length % 2 = 0 := rfl
  have hpair : ∀ i : ℕ, 2 * i + 1 < (sortedIntersections [] 0).length →
      ((sortedIntersections [] 0).getD (2 * i) (0, 0)).2 =
        ((sortedIntersections [] 0).getD (2 * i + 1) (0, 0)).2 := by
    intro i hi
    simp only [show (sortedIntersections [] 0) = [] from rfl, List.length_nil] at hi
    omega
  refine ⟨heven, ?_⟩
  rw [polygon_cover_scanline [] 0 heven hpair ((0, 0, 0) : Tile)]
  rintro ⟨i, hi, _⟩
  simp only [show (sortedIntersections [] 0) = [] from rfl, List.length_nil] at hi
  omega

/-! ### Evaluation lemmas for the traversal loop -/

theorem ecoe_lt_one {a : ℝ} (h : a < 1) : (a : EReal) < 1 := by
  rw [← EReal.coe_one]
  exact EReal.coe_lt_coe_iff.mpr h

theorem ecoe_not_lt_one {a : ℝ} (h : 1 ≤ a) : ¬ (a : EReal) < 1 := by
  rw [← EReal.coe_one]
  intro hc
  exact absurd (EReal.coe_lt_coe_iff.mp hc) (not_lt.mpr h)

theorem ceil_eval {r : ℝ} {n : ℤ} (h1 : (n : ℝ) - 1 < r) (h2 : r ≤ n) : ⌈r⌉ = n := by
  rw [Int.ceil_eq_iff]
  exact ⟨h1, h2⟩

theorem ecoe_add_eq {a b c : ℝ} (h : a + b = c) :
    (a : EReal) + (b : EReal) = (c : EReal) := by
  rw [← EReal.coe_add, h]

theorem etop_not_lt_one : ¬ (⊤ : EReal) < 1 := not_top_lt

/-- One x-step of `lineLoop`: taken exactly when `tmax_x` is strictly
smaller than `tmax_y`. -/
theorem lineLoop_step_x (zoom sx sy : ℤ) (tdx tdy : EReal) (n : ℕ) (x y : ℤ)
    (tmx tmy : EReal) (hash : Finset Tile) (ring : List (ℤ × ℤ)) (py : ℤ)
    (hrun : tmx < 1 ∨ tmy < 1) (hlt : tmx < tmy) :
    lineLoop zoom sx sy tdx tdy (n + 1) x y tmx tmy hash ring py =
      lineLoop zoom sx sy tdx tdy n (x + sx) y (tmx + tdx) tmy
        (insert ((x + sx, y, zoom) : Tile) hash)
        (if y ≠ py then ring ++ [(x + sx, y)] else ring) y := by
  rw [lineLoop, if_pos hrun, if_pos hlt]

/-- One y-step of `lineLoop`: taken exactly when `tmax_x` is NOT strictly
smaller than `tmax_y` — including exact ties. -/
theorem lineLoop_step_y (zoom sx sy : ℤ) (tdx tdy : EReal) (n : ℕ) (x y : ℤ)
    (tmx tmy : EReal) (hash : Finset Tile) (ring : List (ℤ × ℤ)) (py : ℤ)
    (hrun : tmx < 1 ∨ tmy < 1) (hnlt : ¬ tmx < tmy) :
    lineLoop zoom sx sy tdx tdy (n + 1) x y tmx tmy hash ring py =
      lineLoop zoom sx sy tdx tdy n x (y + sy) tmx (tmy + tdy)
        (insert ((x, y + sy, zoom) : Tile) hash)
        (if y + sy ≠ py then ring ++ [(x, y + sy)] else ring) (y + sy) := by
  rw [lineLoop, if_pos hrun, if_neg hnlt]

/-- Loop exit of `lineLoop`. -/
theorem lineLoop_stop (zoom sx sy : ℤ) (tdx tdy : EReal) (n : ℕ) (x y : ℤ)
    (tmx tmy : EReal) (hash : Finset Tile) (ring : List (ℤ × ℤ)) (py : ℤ)
    (hstop : ¬ (tmx < 1 ∨ tmy < 1)) :
    lineLoop zoom sx sy tdx tdy (n + 1) x y tmx tmy hash ring py =
      (hash, ring, x, y) := by
  rw [lineLoop, if_neg hstop]

/-- `lineLoop_step_x` with the fuel given as an equation, convenient for
rewriting at literal fuels. -/
theorem lineLoop_step_xF (zoom sx sy : ℤ) (tdx tdy : EReal) (n m : ℕ)
    (hn : n = m + 1) (x y : ℤ) (tmx tmy : EReal) (hash : Finset Tile)
    (ring : List (ℤ × ℤ)) (py : ℤ)
    (hrun : tmx < 1 ∨ tmy < 1) (hlt : tmx < tmy) :
    lineLoop zoom sx sy tdx tdy n x y tmx tmy hash ring py =
      lineLoop zoom sx sy tdx tdy m (x + sx) y (tmx + tdx) tmy
        (insert ((x + sx, y, zoom) : Tile) hash)
        (if y ≠ py then ring ++ [(x + sx, y)] else ring) y := by
  subst hn
  exact lineLoop_step_x zoom sx sy tdx tdy m x y tmx tmy hash ring py hrun hlt

/-- `lineLoop_step_y` with the fuel given as an equation. -/
theorem lineLoop_step_yF (zoom sx sy : ℤ) (tdx tdy : EReal) (n m : ℕ)
    (hn : n = m + 1) (x y : ℤ) (tmx tmy : EReal) (hash : Finset Tile)
    (ring : List (ℤ × ℤ)) (py : ℤ)
    (hrun : tmx < 1 ∨ tmy < 1) (hnlt : ¬ tmx < tmy) :
    lineLoop zoom sx sy tdx tdy n x y tmx tmy hash ring py =
      lineLoop zoom sx sy tdx tdy m x (y + sy) tmx (tmy + tdy)
        (insert ((x, y + sy, zoom) : Tile) hash)
        (if y + sy ≠ py then ring ++ [(x, y + sy)] else ring) (y + sy) := by
  subst hn
  exact lineLoop_step_y zoom sx sy tdx tdy m x y tmx tmy hash ring py hrun hnlt

/-- `lineLoop_stop` with the fuel given as an equation. -/
theorem lineLoop_stopF (zoom sx sy : ℤ) (tdx tdy : EReal) (n m : ℕ)
    (hn : n = m + 1) (x y : ℤ) (tmx tmy : EReal) (hash : Finset Tile)
    (ring : List (ℤ × ℤ)) (py : ℤ)
    (hstop : ¬ (tmx < 1 ∨ tmy < 1)) :
    lineLoop zoom sx sy tdx tdy n x y tmx tmy hash ring py =
      (hash, ring, x, y) := by
  subst hn
  exact lineLoop_stop zoom sx sy tdx tdy m x y tmx tmy hash ring py hstop

theorem processSegment_eq_body (zoom : ℤ) (p0 p1 : Point) (st : LineState) :
    processSegment zoom p0 p1 st =
      segmentBody zoom (point_to_tile_fraction p0 zoom)
        (point_to_tile_fraction p1 zoom) st :=
  rfl

/-- Evaluation of `segmentBody` when the previous-position state is `none`
and all derived quantities are supplied as precomputed values. -/
theorem segmentBody_eval_none (zoom : ℤ) (x0 y0 x1 y1 : ℝ)
    (hash : Finset Tile) (ring : List (ℤ × ℤ))
    (sx sy xf yf : ℤ) (tmx tmy tdx tdy : EReal) (fuel : ℕ)
    (hnd : ¬ (x1 - x0 = 0 ∧ y1 - y0 = 0))
    (hsx : (if x1 - x0 > 0 then (1 : ℤ) else -1) = sx)
    (hsy : (if y1 - y0 > 0 then (1 : ℤ) else -1) = sy)
    (hxf : ⌊x0⌋ = xf) (hyf : ⌊y0⌋ = yf)
    (htmx : (if x1 - x0 = 0 then (⊤ : EReal)
        else ((|((if x1 - x0 > 0 then (1 : ℝ) else 0) + (xf : ℝ) - x0) / (x1 - x0)| : ℝ) : EReal)) = tmx)
    (htmy : (if y1 - y0 = 0 then (⊤ : EReal)
        else ((|((if y1 - y0 > 0 then (1 : ℝ) else 0) + (yf : ℝ) - y0) / (y1 - y0)| : ℝ) : EReal)) = tmy)
    (htdx : (if x1 - x0 = 0 then (⊤ : EReal)
        else ((|(sx : ℝ) / (x1 - x0)| : ℝ) : EReal)) = tdx)
    (htdy : (if y1 - y0 = 0 then (⊤ : EReal)
        else ((|(sy : ℝ) / (y1 - y0)| : ℝ) : EReal)) = tdy)
    (hfuel : (⌈|x1 - x0|⌉ + ⌈|y1 - y0|⌉ + 1).toNat = fuel) :
    segmentBody zoom (x0, y0, zoom) (x1, y1, zoom) ⟨hash, ring, none⟩ =
      ⟨(lineLoop zoom sx sy tdx tdy fuel xf yf tmx tmy
          (insert ((xf, yf, zoom) : Tile) hash) (ring ++ [(xf, yf)]) yf).1,
        (lineLoop zoom sx sy tdx tdy fuel xf yf tmx tmy
          (insert ((xf, yf, zoom) : Tile) hash) (ring ++ [(xf, yf)]) yf).2.1,
        some ((lineLoop zoom sx sy tdx tdy fuel xf yf tmx tmy
          (insert ((xf, yf, zoom) : Tile) hash) (ring ++ [(xf, yf)]) yf).2.2.1,
          (lineLoop zoom sx sy tdx tdy fuel xf yf tmx tmy
          (insert ((xf, yf, zoom) : Tile) hash) (ring ++ [(xf, yf)]) yf).2.2.2)⟩ := by
  simp only [segmentBody]
  rw [if_neg hnd, hsx, hsy, hxf, hyf, htmx, htmy, htdx, htdy, hfuel]

/-- Evaluation of `segmentBody` when the previous position equals the floor
of the segment start (the initial add is skipped). -/
theorem segmentBody_eval_prev (zoom : ℤ) (x0 y0 x1 y1 : ℝ)
    (hash : Finset Tile) (ring : List (ℤ × ℤ))
    (sx sy xf yf : ℤ) (tmx tmy tdx tdy : EReal) (fuel : ℕ)
    (hnd : ¬ (x1 - x0 = 0 ∧ y1 - y0 = 0))
    (hsx : (if x1 - x0 > 0 then (1 : ℤ) else -1) = sx)
    (hsy : (if y1 - y0 > 0 then (1 : ℤ) else -1) = sy)
    (hxf : ⌊x0⌋ = xf) (hyf : ⌊y0⌋ = yf)
    (htmx : (if x1 - x0 = 0 then (⊤ : EReal)
        else ((|((if x1 - x0 > 0 then (1 : ℝ) else 0) + (xf : ℝ) - x0) / (x1 - x0)| : ℝ) : EReal)) = tmx)
    (htmy : (if y1 - y0 = 0 then (⊤ : EReal)
        else ((|((if y1 - y0 > 0 then (1 : ℝ) else 0) + (yf : ℝ) - y0) / (y1 - y0)| : ℝ) : EReal)) = tmy)
    (htdx : (if x1 - x0 = 0 then (⊤ : EReal)
        else ((|(sx : ℝ) / (x1 - x0)| : ℝ) : EReal)) = tdx)
    (htdy : (if y1 - y0 = 0 then (⊤ : EReal)
        else ((|(sy : ℝ) / (y1 - y0)| : ℝ) : EReal)) = tdy)
    (hfuel : (⌈|x1 - x0|⌉ + ⌈|y1 - y0|⌉ + 1).toNat = fuel) :
    segmentBody zoom (x0, y0, zoom) (x1, y1, zoom) ⟨hash, ring, some (xf, yf)⟩ =
      ⟨(lineLoop zoom sx sy tdx tdy fuel xf yf tmx tmy hash ring yf).1,
        (lineLoop zoom sx sy tdx tdy fuel xf yf tmx tmy hash ring yf).2.1,
        some ((lineLoop zoom sx sy tdx tdy fuel xf yf tmx tmy hash ring yf).2.2.1,
          (lineLoop zoom sx sy tdx tdy fuel xf yf tmx tmy hash ring yf).2.2.2)⟩ := by
  simp only [segmentBody]
  rw [if_neg hnd, hsx, hsy, hxf, hyf, htmx, htmy, htdx, htdy, hfuel]
  rw [if_neg (by push_neg; exact ⟨rfl, rfl⟩)]

/-! ### A concrete traversal with an exact tie (claim C2)

The segment below projects to the tile-space segment from `(1/2, 3/2)` to
`(3/2, 5/2)` at zoom 1: both axes have remaining fractional distance `1/2`
to the next grid line, and unit slope, so the very first loop iteration is
an exact tie `tmax_x = tmax_y = 1/2`. -/

theorem ptf_tieP0 : point_to_tile_fraction tieP0 1 = ((1 / 2 : ℝ), 3 / 2, 1) := by
  unfold tieP0
  rw [ptf_latOfMerc]
  have h2 : ((2 : ℝ) ^ (1 : ℤ)) = 2 := by norm_num
  rw [h2]
  have hx : (2 : ℝ) * ((-90) / 360.0 + 0.5) = 1 / 2 := by norm_num
  rw [hx]
  have hm : pymod (1 / 2 : ℝ) 2 = 1 / 2 - 2 * ((0 : ℤ) : ℝ) :=
    pymod_eval (by norm_num) (by norm_num) (by norm_num)
  have hm2 : pymod (1 / 2 : ℝ) 2 = 1 / 2 := by rw [hm]; norm_num
  rw [hm2]
  have hy : (2 : ℝ) * (0.5 - (-(Real.pi / 2)) / (2 * Real.pi)) = 3 / 2 := by
    have hpi := Real.pi_ne_zero
    field_simp
    ring
  rw [hy]

theorem ptf_tieP1 : point_to_tile_fraction tieP1 1 = ((3 / 2 : ℝ), 5 / 2, 1) := by
  unfold tieP1
  rw [ptf_latOfMerc]
  have h2 : ((2 : ℝ) ^ (1 : ℤ)) = 2 := by norm_num
  rw [h2]
  have hx : (2 : ℝ) * ((90 : ℝ) / 360.0 + 0.5) = 3 / 2 := by norm_num
  rw [hx]
  have hm : pymod (3 / 2 : ℝ) 2 = 3 / 2 - 2 * ((0 : ℤ) : ℝ) :=
    pymod_eval (by norm_num) (by norm_num) (by norm_num)
  have hm2 : pymod (3 / 2 : ℝ) 2 = 3 / 2 := by rw [hm]; norm_num
  rw [hm2]
  have hy : (2 : ℝ) * (0.5 - (-(3 * Real.pi / 2)) / (2 * Real.pi)) = 5 / 2 := by
    have hpi := Real.pi_ne_zero
    field_simp
    ring
  rw [hy]

/-- Full evaluation of `line_cover` on the tie segment: the tie at
`tmax_x = tmax_y = 1/2` is resolved by a y-step, so the visited tiles are
`(0,1), (0,2), (1,2)` (an x-first tie rule would visit `(1,1)` instead of
`(0,2)`). -/
theorem line_cover_tie_eval :
    line_cover [tieP0, tieP1] 1 =
      (insert ((1, 2, 1) : Tile) (insert ((0, 2, 1) : Tile)
        (insert ((0, 1, 1) : Tile) ∅)), [(0, 1), (0, 2)]) := by
  have hLL : lineLoop 1 1 1 ((1 : ℝ) : EReal) ((1 : ℝ) : EReal) 3 0 1
      ((1 / 2 : ℝ) : EReal) ((1 / 2 : ℝ) : EReal)
      (insert ((0, 1, 1) : Tile) ∅) ([] ++ [(0, 1)]) 1 =
      (insert ((1, 2, 1) : Tile) (insert ((0, 2, 1) : Tile)
        (insert ((0, 1, 1) : Tile) ∅)), [(0, 1), (0, 2)], 1, 2) := by
    rw [lineLoop_step_yF 1 1 1 _ _ 3 2 rfl 0 1 _ _ _ _ 1
      (Or.inl (ecoe_lt_one (by norm_num))) (lt_irrefl _)]
    rw [ecoe_add_eq (show (1 / 2 : ℝ) + 1 = 3 / 2 by norm_num)]
    rw [lineLoop_step_xF 1 1 1 _ _ 2 1 rfl 0 (1 + 1) _ _ _ _ (1 + 1)
      (Or.inl (ecoe_lt_one (by norm_num)))
      (EReal.coe_lt_coe_iff.mpr (by norm_num))]
    rw [ecoe_add_eq (show (1 / 2 : ℝ) + 1 = 3 / 2 by norm_num)]
    rw [lineLoop_stopF 1 1 1 _ _ 1 0 rfl (0 + 1) (1 + 1) _ _ _ _ (1 + 1)
      (by rintro (h | h) <;> exact absurd h (ecoe_not_lt_one (by norm_num)))]
    norm_num
  have hseg : processSegment 1 tieP0 tieP1 ⟨∅, [], none⟩ =
      ⟨insert ((1, 2, 1) : Tile) (insert ((0, 2, 1) : Tile)
        (insert ((0, 1, 1) : Tile) ∅)), [(0, 1), (0, 2)], some (1, 2)⟩ := by
    rw [processSegment_eq_body, ptf_tieP0, ptf_tieP1]
    rw [segmentBody_eval_none 1 (1 / 2) (3 / 2) (3 / 2) (5 / 2) ∅ [] 1 1 0 1
      ((1 / 2 : ℝ) : EReal) ((1 / 2 : ℝ) : EReal) ((1 : ℝ) : EReal) ((1 : ℝ) : EReal) 3
      (by norm_num) (by norm_num) (by norm_num)
      (floor_eval (by norm_num) (by norm_num)) (floor_eval (by norm_num) (by norm_num))
      (by rw [if_neg (by norm_num)]; norm_num)
      (by rw [if_neg (by norm_num)]; norm_num)
      (by rw [if_neg (by norm_num)]; norm_num)
      (by rw [if_neg (by norm_num)]; norm_num)
      (by
        have hc : ⌈|(3 / 2 : ℝ) - 1 / 2|⌉ = 1 := by
          rw [show |(3 / 2 : ℝ) - 1 / 2| = 1 by norm_num]
          exact ceil_eval (by norm_num) (by norm_num)
        have hc2 : ⌈|(5 / 2 : ℝ) - 3 / 2|⌉ = 1 := by
          rw [show |(5 / 2 : ℝ) - 3 / 2| = 1 by norm_num]
          exact ceil_eval (by norm_num) (by norm_num)
        rw [hc, hc2]
        decide)]
    rw [hLL]
  unfold line_cover
  simp only [List.tail_cons, List.zip_cons_cons, List.zip_nil_right,
    List.foldl_cons, List.foldl_nil, hseg]
  norm_num

theorem lineLoopTieX_step_xF (zoom sx sy : ℤ) (tdx tdy : EReal) (n m : ℕ)
    (hn : n = m + 1) (x y : ℤ) (tmx tmy : EReal) (hash : Finset Tile)
    (ring : List (ℤ × ℤ)) (py : ℤ)
    (hrun : tmx < 1 ∨ tmy < 1) (hle : tmx ≤ tmy) :
    lineLoopTieX zoom sx sy tdx tdy n x y tmx tmy hash ring py =
      lineLoopTieX zoom sx sy tdx tdy m (x + sx) y (tmx + tdx) tmy
        (insert ((x + sx, y, zoom) : Tile) hash)
        (if y ≠ py then ring ++ [(x + sx, y)] else ring) y := by
  subst hn
  rw [lineLoopTieX, if_pos hrun, if_pos hle]

theorem lineLoopTieX_step_yF (zoom sx sy : ℤ) (tdx tdy : EReal) (n m : ℕ)
    (hn : n = m + 1) (x y : ℤ) (tmx tmy : EReal) (hash : Finset Tile)
    (ring : List (ℤ × ℤ)) (py : ℤ)
    (hrun : tmx < 1 ∨ tmy < 1) (hnle : ¬ tmx ≤ tmy) :
    lineLoopTieX zoom sx sy tdx tdy n x y tmx tmy hash ring py =
      lineLoopTieX zoom sx sy tdx tdy m x (y + sy) tmx (tmy + tdy)
        (insert ((x, y + sy, zoom) : Tile) hash)
        (if y + sy ≠ py then ring ++ [(x, y + sy)] else ring) (y + sy) := by
  subst hn
  rw [lineLoopTieX, if_pos hrun, if_neg hnle]

theorem lineLoopTieX_stopF (zoom sx sy : ℤ) (tdx tdy : EReal) (n m : ℕ)
    (hn : n = m + 1) (x y : ℤ) (tmx tmy : EReal) (hash : Finset Tile)
    (ring : List (ℤ × ℤ)) (py : ℤ)
    (hstop : ¬ (tmx < 1 ∨ tmy < 1)) :
    lineLoopTieX zoom sx sy tdx tdy n x y tmx tmy hash ring py =
      (hash, ring, x, y) := by
  subst hn
  rw [lineLoopTieX, if_neg hstop]

theorem segmentBodyTieX_eval_none (zoom : ℤ) (x0 y0 x1 y1 : ℝ)
    (hash : Finset Tile) (ring : List (ℤ × ℤ))
    (sx sy xf yf : ℤ) (tmx tmy tdx tdy : EReal) (fuel : ℕ)
    (hnd : ¬ (x1 - x0 = 0 ∧ y1 - y0 = 0))
    (hsx : (if x1 - x0 > 0 then (1 : ℤ) else -1) = sx)
    (hsy : (if y1 - y0 > 0 then (1 : ℤ) else -1) = sy)
    (hxf : ⌊x0⌋ = xf) (hyf : ⌊y0⌋ = yf)
    (htmx : (if x1 - x0 = 0 then (⊤ : EReal)
        else ((|((if x1 - x0 > 0 then (1 : ℝ) else 0) + (xf : ℝ) - x0) / (x1 - x0)| : ℝ) : EReal)) = tmx)
    (htmy : (if y1 - y0 = 0 then (⊤ : EReal)
        else ((|((if y1 - y0 > 0 then (1 : ℝ) else 0) + (yf : ℝ) - y0) / (y1 - y0)| : ℝ) : EReal)) = tmy)
    (htdx : (if x1 - x0 = 0 then (⊤ : EReal)
        else ((|(sx : ℝ) / (x1 - x0)| : ℝ) : EReal)) = tdx)
    (htdy : (if y1 - y0 = 0 then (⊤ : EReal)
        else ((|(sy : ℝ) / (y1 - y0)| : ℝ) : EReal)) = tdy)
    (hfuel : (⌈|x1 - x0|⌉ + ⌈|y1 - y0|⌉ + 1).toNat = fuel) :
    segmentBodyTieX zoom (x0, y0, zoom) (x1, y1, zoom) ⟨hash, ring, none⟩ =
      ⟨(lineLoopTieX zoom sx sy tdx tdy fuel xf yf tmx tmy
          (insert ((xf, yf, zoom) : Tile) hash) (ring ++ [(xf, yf)]) yf).1,
        (lineLoopTieX zoom sx sy tdx tdy fuel xf yf tmx tmy
          (insert ((xf, yf, zoom) : Tile) hash) (ring ++ [(xf, yf)]) yf).2.1,
        some ((lineLoopTieX zoom sx sy tdx tdy fuel xf yf tmx tmy
          (insert ((xf, yf, zoom) : Tile) hash) (ring ++ [(xf, yf)]) yf).2.2.1,
          (lineLoopTieX zoom sx sy tdx tdy fuel xf yf tmx tmy
          (insert ((xf, yf, zoom) : Tile) hash) (ring ++ [(xf, yf)]) yf).2.2.2)⟩ := by
  simp only [segmentBodyTieX]
  rw [if_neg hnd, hsx, hsy, hxf, hyf, htmx, htmy, htdx, htdy, hfuel]

/-- Evaluation of the spec's tie-x traversal on the tie segment: the tie is
resolved by an x-step, so the visited tiles are `(0,1), (1,1), (1,2)`. -/
theorem line_cover_tieX_eval :
    line_cover_tieX [tieP0, tieP1] 1 =
      (insert ((1, 2, 1) : Tile) (insert ((1, 1, 1) : Tile)
        (insert ((0, 1, 1) : Tile) ∅)), [(0, 1), (1, 2)]) := by
  have hLL : lineLoopTieX 1 1 1 ((1 : ℝ) : EReal) ((1 : ℝ) : EReal) 3 0 1
      ((1 / 2 : ℝ) : EReal) ((1 / 2 : ℝ) : EReal)
      (insert ((0, 1, 1) : Tile) ∅) ([] ++ [(0, 1)]) 1 =
      (insert ((1, 2, 1) : Tile) (insert ((1, 1, 1) : Tile)
        (insert ((0, 1, 1) : Tile) ∅)), [(0, 1), (1, 2)], 1, 2) := by
    rw [lineLoopTieX_step_xF 1 1 1 _ _ 3 2 rfl 0 1 _ _ _ _ 1
      (Or.inl (ecoe_lt_one (by norm_num))) (le_refl _)]
    rw [ecoe_add_eq (show (1 / 2 : ℝ) + 1 = 3 / 2 by norm_num)]
    rw [lineLoopTieX_step_yF 1 1 1 _ _ 2 1 rfl (0 + 1) 1 _ _ _ _ 1
      (Or.inr (ecoe_lt_one (by norm_num)))
      (by
        intro hc
        have := EReal.coe_lt_coe_iff.mp (lt_of_le_of_lt hc (ecoe_lt_one (by norm_num)))
        norm_num at this)]
    rw [ecoe_add_eq (show (1 / 2 : ℝ) + 1 = 3 / 2 by norm_num)]
    rw [lineLoopTieX_stopF 1 1 1 _ _ 1 0 rfl (0 + 1) (1 + 1) _ _ _ _ (1 + 1)
      (by rintro (h | h) <;> exact absurd h (ecoe_not_lt_one (by norm_num)))]
    norm_num
  have hseg : segmentBodyTieX 1 (point_to_tile_fraction tieP0 1)
      (point_to_tile_fraction tieP1 1) ⟨∅, [], none⟩ =
      ⟨insert ((1, 2, 1) : Tile) (insert ((1, 1, 1) : Tile)
        (insert ((0, 1, 1) : Tile) ∅)), [(0, 1), (1, 2)], some (1, 2)⟩ := by
    rw [ptf_tieP0, ptf_tieP1]
    rw [segmentBodyTieX_eval_none 1 (1 / 2) (3 / 2) (3 / 2) (5 / 2) ∅ [] 1 1 0 1
      ((1 / 2 : ℝ) : EReal) ((1 / 2 : ℝ) : EReal) ((1 : ℝ) : EReal) ((1 : ℝ) : EReal) 3
      (by norm_num) (by norm_num) (by norm_num)
      (floor_eval (by norm_num) (by norm_num)) (floor_eval (by norm_num) (by norm_num))
      (by rw [if_neg (by norm_num)]; norm_num)
      (by rw [if_neg (by norm_num)]; norm_num)
      (by rw [if_neg (by norm_num)]; norm_num)
      (by rw [if_neg (by norm_num)]; norm_num)
      (by
        have hc : ⌈|(3 / 2 : ℝ) - 1 / 2|⌉ = 1 := by
          rw [show |(3 / 2 : ℝ) - 1 / 2| = 1 by norm_num]
          exact ceil_eval (by norm_num) (by norm_num)
        have hc2 : ⌈|(5 / 2 : ℝ) - 3 / 2|⌉ = 1 := by
          rw [show |(5 / 2 : ℝ) - 3 / 2| = 1 by norm_num]
          exact ceil_eval (by norm_num) (by norm_num)
        rw [hc, hc2]
        decide)]
    rw [hLL]
  unfold line_cover_tieX
  simp only [List.tail_cons, List.zip_cons_cons, List.zip_nil_right,
    List.foldl_cons, List.foldl_nil, hseg]
  norm_num

/-- C2 counterexample: the claim "ties step x" is false of `line_cover`.
At the tie segment (projected endpoints `(1/2, 3/2)` and `(3/2, 5/2)`, so
`tmax_x = tmax_y = 1/2` at the first iteration) the code's branch test
`tmax_x < tmax_y` fails on the tie and steps y, visiting `(0,2)` and never
`(1,1)`; the spec's tie-x rule (`line_cover_tieX`, modelled from the spec's
words) visits `(1,1)` and never `(0,2)`. -/
theorem line_cover_tie_break_counterexample :
    point_to_tile_fraction tieP0 1 = ((1 / 2 : ℝ), 3 / 2, 1) ∧
    point_to_tile_fraction tieP1 1 = ((3 / 2 : ℝ), 5 / 2, 1) ∧
    ((0, 2, 1) : Tile) ∈ (line_cover [tieP0, tieP1] 1).1 ∧
    ((1, 1, 1) : Tile) ∉ (line_cover [tieP0, tieP1] 1).1 ∧
    ((1, 1, 1) : Tile) ∈ (line_cover_tieX [tieP0, tieP1] 1).1 ∧
    ((0, 2, 1) : Tile) ∉ (line_cover_tieX [tieP0, tieP1] 1).1 := by
  refine ⟨ptf_tieP0, ptf_tieP1, ?_, ?_, ?_, ?_⟩
  · rw [line_cover_tie_eval]
    decide
  · rw [line_cover_tie_eval]
    decide
  · rw [line_cover_tieX_eval]
    decide
  · rw [line_cover_tieX_eval]
    decide

/-- C2 (amended): in `line_cover`'s supercover traversal, a step advances
along the axis whose remaining parametric distance is STRICTLY smaller, and
whenever the two distances are exactly equal the step is taken in y (not x):
the branch test is `tmax_x < tmax_y`.  Concretely, at the tie input the code
visits `(0,2)` and not `(1,1)`. -/
theorem line_cover_steps_smaller_axis :
    (∀ (zoom sx sy : ℤ) (tdx tdy : EReal) (n : ℕ) (x y : ℤ) (tmx tmy : EReal)
        (hash : Finset Tile) (ring : List (ℤ × ℤ)) (py : ℤ),
      (tmx < 1 ∨ tmy < 1) →
        (tmx < tmy →
          lineLoop zoom sx sy tdx tdy (n + 1) x y tmx tmy hash ring py =
            lineLoop zoom sx sy tdx tdy n (x + sx) y (tmx + tdx) tmy
              (insert ((x + sx, y, zoom) : Tile) hash)
              (if y ≠ py then ring ++ [(x + sx, y)] else ring) y) ∧
        (tmy ≤ tmx →
          lineLoop zoom sx sy tdx tdy (n + 1) x y tmx tmy hash ring py =
            lineLoop zoom sx sy tdx tdy n x (y + sy) tmx (tmy + tdy)
              (insert ((x, y + sy, zoom) : Tile) hash)
              (if y + sy ≠ py then ring ++ [(x, y + sy)] else ring) (y + sy))) ∧
    ((0, 2, 1) : Tile) ∈ (line_cover [tieP0, tieP1] 1).1 ∧
    ((1, 1, 1) : Tile) ∉ (line_cover [tieP0, tieP1] 1).1 := by
  refine ⟨?_, ?_, ?_⟩
  · intro zoom sx sy tdx tdy n x y tmx tmy hash ring py hrun
    constructor
    · intro hlt
      exact lineLoop_step_x zoom sx sy tdx tdy n x y tmx tmy hash ring py hrun hlt
    · intro hle
      exact lineLoop_step_y zoom sx sy tdx tdy n x y tmx tmy hash ring py hrun
        (not_lt.mpr hle)
  · rw [line_cover_tie_eval]
    decide
  · rw [line_cover_tie_eval]
    decide

/-- C2 witness: the step rule applied at the concrete tie state
`tmax_x = tmax_y = 1/2`, which steps y. -/
theorem line_cover_steps_smaller_axis_holds :
    (((1 / 2 : ℝ) : EReal) < 1 ∨ ((1 / 2 : ℝ) : EReal) < 1) ∧
    ((1 / 2 : ℝ) : EReal) ≤ ((1 / 2 : ℝ) : EReal) ∧
    lineLoop 0 1 1 ((1 : ℝ) : EReal) ((1 : ℝ) : EReal) (0 + 1) 0 0
        ((1 / 2 : ℝ) : EReal) ((1 / 2 : ℝ) : EReal) ∅ [] 0 =
      lineLoop 0 1 1 ((1 : ℝ) : EReal) ((1 : ℝ) : EReal) 0 0 (0 + 1)
        ((1 / 2 : ℝ) : EReal) (((1 / 2 : ℝ) : EReal) + ((1 : ℝ) : EReal))
        (insert ((0, 0 + 1, 0) : Tile) ∅)
        (if 0 + 1 ≠ 0 then [] ++ [(0, 0 + 1)] else []) (0 + 1) :=
  ⟨Or.inl (ecoe_lt_one (by norm_num)), le_refl _,
    (line_cover_steps_smaller_axis.1 0 1 1 ((1 : ℝ) : EReal) ((1 : ℝ) : EReal) 0 0 0
      ((1 / 2 : ℝ) : EReal) ((1 / 2 : ℝ) : EReal) ∅ [] 0
      (Or.inl (ecoe_lt_one (by norm_num)))).2 (le_refl _)⟩

/-! ### A concrete polygon cover (claims C7 and C2's context)

An axis-aligned rectangle in projected tile space at zoom 3: corners
`(4/3, 13/4)` and `(20/3, 11/2)`.  Its border occupies rows 3 and 5 and
columns 1 and 6, and the scanline fill emits the interior tiles
`(2,4), (3,4), (4,4), (5,4)`. -/

theorem ptf_rectP1 : point_to_tile_fraction rectP1 3 = ((4 / 3 : ℝ), 13 / 4, 3) := by
  unfold rectP1
  rw [ptf_latOfMerc]
  have h2 : ((2 : ℝ) ^ (3 : ℤ)) = 8 := by norm_num
  rw [h2]
  have hx : (8 : ℝ) * ((-120) / 360.0 + 0.5) = 4 / 3 := by norm_num
  rw [hx]
  have hm : pymod (4 / 3 : ℝ) 8 = 4 / 3 - 8 * ((0 : ℤ) : ℝ) :=
    pymod_eval (by norm_num) (by norm_num) (by norm_num)
  have hm2 : pymod (4 / 3 : ℝ) 8 = 4 / 3 := by rw [hm]; norm_num
  rw [hm2]
  have hy : (8 : ℝ) * (0.5 - 3 * Real.pi / 16 / (2 * Real.pi)) = 13 / 4 := by
    have hpi := Real.pi_ne_zero
    field_simp
    ring
  rw [hy]

theorem ptf_rectP2 : point_to_tile_fraction rectP2 3 = ((20 / 3 : ℝ), 13 / 4, 3) := by
  unfold rectP2
  rw [ptf_latOfMerc]
  have h2 : ((2 : ℝ) ^ (3 : ℤ)) = 8 := by norm_num
  rw [h2]
  have hx : (8 : ℝ) * ((120 : ℝ) / 360.0 + 0.5) = 20 / 3 := by norm_num
  rw [hx]
  have hm : pymod (20 / 3 : ℝ) 8 = 20 / 3 - 8 * ((0 : ℤ) : ℝ) :=
    pymod_eval (by norm_num) (by norm_num) (by norm_num)
  have hm2 : pymod (20 / 3 : ℝ) 8 = 20 / 3 := by rw [hm]; norm_num
  rw [hm2]
  have hy : (8 : ℝ) * (0.5 - 3 * Real.pi / 16 / (2 * Real.pi)) = 13 / 4 := by
    have hpi := Real.pi_ne_zero
    field_simp
    ring
  rw [hy]

theorem ptf_rectP3 : point_to_tile_fraction rectP3 3 = ((20 / 3 : ℝ), 11 / 2, 3) := by
  unfold rectP3
  rw [ptf_latOfMerc]
  have h2 : ((2 : ℝ) ^ (3 : ℤ)) = 8 := by norm_num
  rw [h2]
  have hx : (8 : ℝ) * ((120 : ℝ) / 360.0 + 0.5) = 20 / 3 := by norm_num
  rw [hx]
  have hm : pymod (20 / 3 : ℝ) 8 = 20 / 3 - 8 * ((0 : ℤ) : ℝ) :=
    pymod_eval (by norm_num) (by norm_num) (by norm_num)
  have hm2 : pymod (20 / 3 : ℝ) 8 = 20 / 3 := by rw [hm]; norm_num
  rw [hm2]
  have hy : (8 : ℝ) * (0.5 - (-(3 * Real.pi / 8)) / (2 * Real.pi)) = 11 / 2 := by
    have hpi := Real.pi_ne_zero
    field_simp
    ring
  rw [hy]

theorem ptf_rectP4 : point_to_tile_fraction rectP4 3 = ((4 / 3 : ℝ), 11 / 2, 3) := by
  unfold rectP4
  rw [ptf_latOfMerc]
  have h2 : ((2 : ℝ) ^ (3 : ℤ)) = 8 := by norm_num
  rw [h2]
  have hx : (8 : ℝ) * ((-120) / 360.0 + 0.5) = 4 / 3 := by norm_num
  rw [hx]
  have hm : pymod (4 / 3 : ℝ) 8 = 4 / 3 - 8 * ((0 : ℤ) : ℝ) :=
    pymod_eval (by norm_num) (by norm_num) (by norm_num)
  have hm2 : pymod (4 / 3 : ℝ) 8 = 4 / 3 := by rw [hm]; norm_num
  rw [hm2]
  have hy : (8 : ℝ) * (0.5 - (-(3 * Real.pi / 8)) / (2 * Real.pi)) = 11 / 2 := by
    have hpi := Real.pi_ne_zero
    field_simp
    ring
  rw [hy]

/-- Assembling `line_cover` from an evaluated segment fold. -/
theorem line_cover_assemble (line : List Point) (zoom : ℤ) (H : Finset Tile)
    (rh : ℤ × ℤ) (rt : List (ℤ × ℤ)) (pv : ℤ × ℤ)
    (hst : (line.zip line.tail).foldl
        (fun st pq => processSegment zoom pq.1 pq.2 st) ⟨∅, [], none⟩ =
      ⟨H, rh :: rt, some pv⟩) :
    line_cover line zoom =
      (H, if pv.2 = rh.2 then (rh :: rt).dropLast else rh :: rt) := by
  unfold line_cover
  rw [hst]

set_option maxHeartbeats 1600000 in
/-- Full evaluation of `line_cover` on the rectangle ring at zoom 3. -/
theorem line_cover_rect_eval :
    line_cover rectRing 3 =
      (((insert (1, 3, 3) (insert (1, 4, 3) (insert (1, 5, 3) (insert (2, 5, 3) (insert (3, 5, 3) (insert (4, 5, 3) (insert (5, 5, 3) (insert (6, 5, 3) (insert (6, 4, 3) (insert (6, 3, 3) (insert (5, 3, 3) (insert (4, 3, 3) (insert (3, 3, 3) (insert (2, 3, 3) (insert (1, 3, 3) (∅)))))))))))))))) : Finset Tile),
        [(1, 3), (6, 4), (6, 5), (1, 4)]) := by
  have hLL1 : lineLoop 3 1 (-1) ((3 / 16 : ℝ) : EReal) ⊤ 7 1 3
      ((1 / 8 : ℝ) : EReal) ⊤ (insert ((1, 3, 3) : Tile) ∅) ([] ++ [(1, 3)]) 3 =
      (((insert (6, 3, 3) (insert (5, 3, 3) (insert (4, 3, 3) (insert (3, 3, 3) (insert (2, 3, 3) (insert (1, 3, 3) (∅))))))) : Finset Tile), [(1, 3)], 6, 3) := by
    rw [lineLoop_step_xF 3 1 (-1) _ _ 7 6 rfl 1 3 _ _ _ _ 3
      (Or.inl (ecoe_lt_one (by norm_num))) (EReal.coe_lt_top _)]
    rw [ecoe_add_eq (show (1 / 8 : ℝ) + 3 / 16 = 5 / 16 by norm_num)]
    rw [lineLoop_step_xF 3 1 (-1) _ _ 6 5 rfl (1 + 1) 3 _ _ _ _ 3
      (Or.inl (ecoe_lt_one (by norm_num))) (EReal.coe_lt_top _)]
    rw [ecoe_add_eq (show (5 / 16 : ℝ) + 3 / 16 = 1 / 2 by norm_num)]
    rw [lineLoop_step_xF 3 1 (-1) _ _ 5 4 rfl (1 + 1 + 1) 3 _ _ _ _ 3
      (Or.inl (ecoe_lt_one (by norm_num))) (EReal.coe_lt_top _)]
    rw [ecoe_add_eq (show (1 / 2 : ℝ) + 3 / 16 = 11 / 16 by norm_num)]
    rw [lineLoop_step_xF 3 1 (-1) _ _ 4 3 rfl (1 + 1 + 1 + 1) 3 _ _ _ _ 3
      (Or.inl (ecoe_lt_one (by norm_num))) (EReal.coe_lt_top _)]
    rw [ecoe_add_eq (show (11 / 16 : ℝ) + 3 / 16 = 7 / 8 by norm_num)]
    rw [lineLoop_step_xF 3 1 (-1) _ _ 3 2 rfl (1 + 1 + 1 + 1 + 1) 3 _ _ _ _ 3
      (Or.inl (ecoe_lt_one (by norm_num))) (EReal.coe_lt_top _)]
    rw [ecoe_add_eq (show (7 / 8 : ℝ) + 3 / 16 = 17 / 16 by norm_num)]
    rw [lineLoop_stopF 3 1 (-1) _ _ 2 1 rfl (1 + 1 + 1 + 1 + 1 + 1) 3 _ _ _ _ 3
      (by rintro (h | h)
          · exact absurd h (ecoe_not_lt_one (by norm_num))
          · exact absurd h etop_not_lt_one)]
    norm_num
  have hseg1 : processSegment 3 rectP1 rectP2 ⟨∅, [], none⟩ =
      ⟨((insert (6, 3, 3) (insert (5, 3, 3) (insert (4, 3, 3) (insert (3, 3, 3) (insert (2, 3, 3) (insert (1, 3, 3) (∅))))))) : Finset Tile), [(1, 3)], some (6, 3)⟩ := by
    rw [processSegment_eq_body, ptf_rectP1, ptf_rectP2]
    rw [segmentBody_eval_none 3 (4 / 3) (13 / 4) (20 / 3) (13 / 4) ∅ [] 1 (-1) 1 3
      ((1 / 8 : ℝ) : EReal) ⊤ ((3 / 16 : ℝ) : EReal) ⊤ 7
      (by norm_num) (by norm_num) (by norm_num)
      (floor_eval (by norm_num) (by norm_num)) (floor_eval (by norm_num) (by norm_num))
      (by rw [if_neg (by norm_num)]; norm_num)
      (by rw [if_pos (by norm_num)])
      (by rw [if_neg (by norm_num)]; norm_num)
      (by rw [if_pos (by norm_num)])
      (by
        have hc1 : ⌈|(20 / 3 : ℝ) - 4 / 3|⌉ = 6 := by
          rw [show |(20 / 3 : ℝ) - 4 / 3| = 16 / 3 by norm_num]
          exact ceil_eval (by norm_num) (by norm_num)
        have hc2 : ⌈|(13 / 4 : ℝ) - 13 / 4|⌉ = 0 := by
          rw [show |(13 / 4 : ℝ) - 13 / 4| = 0 by norm_num]
          exact Int.ceil_zero
        rw [hc1, hc2]
        decide)]
    rw [hLL1]
  have hLL2 : lineLoop 3 (-1) 1 ⊤ ((4 / 9 : ℝ) : EReal) 4 6 3 ⊤
      ((1 / 3 : ℝ) : EReal)
      ((insert (6, 3, 3) (insert (5, 3, 3) (insert (4, 3, 3) (insert (3, 3, 3) (insert (2, 3, 3) (insert (1, 3, 3) (∅))))))) : Finset Tile)
      [(1, 3)] 3 =
      (((insert (6, 5, 3) (insert (6, 4, 3) (insert (6, 3, 3) (insert (5, 3, 3) (insert (4, 3, 3) (insert (3, 3, 3) (insert (2, 3, 3) (insert (1, 3, 3) (∅))))))))) : Finset Tile),
        [(1, 3), (6, 4), (6, 5)], 6, 5) := by
    rw [lineLoop_step_yF 3 (-1) 1 _ _ 4 3 rfl 6 3 _ _ _ _ 3
      (Or.inr (ecoe_lt_one (by norm_num))) not_top_lt]
    rw [ecoe_add_eq (show (1 / 3 : ℝ) + 4 / 9 = 7 / 9 by norm_num)]
    rw [lineLoop_step_yF 3 (-1) 1 _ _ 3 2 rfl 6 (3 + 1) _ _ _ _ (3 + 1)
      (Or.inr (ecoe_lt_one (by norm_num))) not_top_lt]
    rw [ecoe_add_eq (show (7 / 9 : ℝ) + 4 / 9 = 11 / 9 by norm_num)]
    rw [lineLoop_stopF 3 (-1) 1 _ _ 2 1 rfl 6 (3 + 1 + 1) _ _ _ _ (3 + 1 + 1)
      (by rintro (h | h)
          · exact absurd h etop_not_lt_one
          · exact absurd h (ecoe_not_lt_one (by norm_num)))]
    norm_num
  have hseg2 : processSegment 3 rectP2 rectP3
      ⟨((insert (6, 3, 3) (insert (5, 3, 3) (insert (4, 3, 3) (insert (3, 3, 3) (insert (2, 3, 3) (insert (1, 3, 3) (∅))))))) : Finset Tile), [(1, 3)], some (6, 3)⟩ =
      ⟨((insert (6, 5, 3) (insert (6, 4, 3) (insert (6, 3, 3) (insert (5, 3, 3) (insert (4, 3, 3) (insert (3, 3, 3) (insert (2, 3, 3) (insert (1, 3, 3) (∅))))))))) : Finset Tile),
        [(1, 3), (6, 4), (6, 5)], some (6, 5)⟩ := by
    rw [processSegment_eq_body, ptf_rectP2, ptf_rectP3]
    rw [segmentBody_eval_prev 3 (20 / 3) (13 / 4) (20 / 3) (11 / 2) _ _ (-1) 1 6 3
      ⊤ ((1 / 3 : ℝ) : EReal) ⊤ ((4 / 9 : ℝ) : EReal) 4
      (by norm_num) (by norm_num) (by norm_num)
      (floor_eval (by norm_num) (by norm_num)) (floor_eval (by norm_num) (by norm_num))
      (by rw [if_pos (by norm_num)])
      (by rw [if_neg (by norm_num)]; norm_num)
      (by rw [if_pos (by norm_num)])
      (by rw [if_neg (by norm_num)]; norm_num)
      (by
        have hc1 : ⌈|(20 / 3 : ℝ) - 20 / 3|⌉ = 0 := by
          rw [show |(20 / 3 : ℝ) - 20 / 3| = 0 by norm_num]
          exact Int.ceil_zero
        have hc2 : ⌈|(11 / 2 : ℝ) - 13 / 4|⌉ = 3 := by
          rw [show |(11 / 2 : ℝ) - 13 / 4| = 9 / 4 by norm_num]
          exact ceil_eval (by norm_num) (by norm_num)
        rw [hc1, hc2]
        decide)]
    rw [hLL2]
  have hLL3 : lineLoop 3 (-1) (-1) ((3 / 16 : ℝ) : EReal) ⊤ 7 6 5
      ((1 / 8 : ℝ) : EReal) ⊤
      ((insert (6, 5, 3) (insert (6, 4, 3) (insert (6, 3, 3) (insert (5, 3, 3) (insert (4, 3, 3) (insert (3, 3, 3) (insert (2, 3, 3) (insert (1, 3, 3) (∅))))))))) : Finset Tile)
      [(1, 3), (6, 4), (6, 5)] 5 =
      (((insert (1, 5, 3) (insert (2, 5, 3) (insert (3, 5, 3) (insert (4, 5, 3) (insert (5, 5, 3) (insert (6, 5, 3) (insert (6, 4, 3) (insert (6, 3, 3) (insert (5, 3, 3) (insert (4, 3, 3) (insert (3, 3, 3) (insert (2, 3, 3) (insert (1, 3, 3) (∅)))))))))))))) : Finset Tile),
        [(1, 3), (6, 4), (6, 5)], 1, 5) := by
    rw [lineLoop_step_xF 3 (-1) (-1) _ _ 7 6 rfl 6 5 _ _ _ _ 5
      (Or.inl (ecoe_lt_one (by norm_num))) (EReal.coe_lt_top _)]
    rw [ecoe_add_eq (show (1 / 8 : ℝ) + 3 / 16 = 5 / 16 by norm_num)]
    rw [lineLoop_step_xF 3 (-1) (-1) _ _ 6 5 rfl (6 + -1) 5 _ _ _ _ 5
      (Or.inl (ecoe_lt_one (by norm_num))) (EReal.coe_lt_top _)]
    rw [ecoe_add_eq (show (5 / 16 : ℝ) + 3 / 16 = 1 / 2 by norm_num)]
    rw [lineLoop_step_xF 3 (-1) (-1) _ _ 5 4 rfl (6 + -1 + -1) 5 _ _ _ _ 5
      (Or.inl (ecoe_lt_one (by norm_num))) (EReal.coe_lt_top _)]
    rw [ecoe_add_eq (show (1 / 2 : ℝ) + 3 / 16 = 11 / 16 by norm_num)]
    rw [lineLoop_step_xF 3 (-1) (-1) _ _ 4 3 rfl (6 + -1 + -1 + -1) 5 _ _ _ _ 5
      (Or.inl (ecoe_lt_one (by norm_num))) (EReal.coe_lt_top _)]
    rw [ecoe_add_eq (show (11 / 16 : ℝ) + 3 / 16 = 7 / 8 by norm_num)]
    rw [lineLoop_step_xF 3 (-1) (-1) _ _ 3 2 rfl (6 + -1 + -1 + -1 + -1) 5 _ _ _ _ 5
      (Or.inl (ecoe_lt_one (by norm_num))) (EReal.coe_lt_top _)]
    rw [ecoe_add_eq (show (7 / 8 : ℝ) + 3 / 16 = 17 / 16 by norm_num)]
    rw [lineLoop_stopF 3 (-1) (-1) _ _ 2 1 rfl (6 + -1 + -1 + -1 + -1 + -1) 5 _ _ _ _ 5
      (by rintro (h | h)
          · exact absurd h (ecoe_not_lt_one (by norm_num))
          · exact absurd h etop_not_lt_one)]
    norm_num
  have hseg3 : processSegment 3 rectP3 rectP4
      ⟨((insert (6, 5, 3) (insert (6, 4, 3) (insert (6, 3, 3) (insert (5, 3, 3) (insert (4, 3, 3) (insert (3, 3, 3) (insert (2, 3, 3) (insert (1, 3, 3) (∅))))))))) : Finset Tile),
        [(1, 3), (6, 4), (6, 5)], some (6, 5)⟩ =
      ⟨((insert (1, 5, 3) (insert (2, 5, 3) (insert (3, 5, 3) (insert (4, 5, 3) (insert (5, 5, 3) (insert (6, 5, 3) (insert (6, 4, 3) (insert (6, 3, 3) (insert (5, 3, 3) (insert (4, 3, 3) (insert (3, 3, 3) (insert (2, 3, 3) (insert (1, 3, 3) (∅)))))))))))))) : Finset Tile),
        [(1, 3), (6, 4), (6, 5)], some (1, 5)⟩ := by
    rw [processSegment_eq_body, ptf_rectP3, ptf_rectP4]
    rw [segmentBody_eval_prev 3 (20 / 3) (11 / 2) (4 / 3) (11 / 2) _ _ (-1) (-1) 6 5
      ((1 / 8 : ℝ) : EReal) ⊤ ((3 / 16 : ℝ) : EReal) ⊤ 7
      (by norm_num) (by norm_num) (by norm_num)
      (floor_eval (by norm_num) (by norm_num)) (floor_eval (by norm_num) (by norm_num))
      (by rw [if_neg (by norm_num)]; norm_num)
      (by rw [if_pos (by norm_num)])
      (by rw [if_neg (by norm_num)]; norm_num)
      (by rw [if_pos (by norm_num)])
      (by
        have hc1 : ⌈|(4 / 3 : ℝ) - 20 / 3|⌉ = 6 := by
          rw [show |(4 / 3 : ℝ) - 20 / 3| = 16 / 3 by norm_num]
          exact ceil_eval (by norm_num) (by norm_num)
        have hc2 : ⌈|(11 / 2 : ℝ) - 11 / 2|⌉ = 0 := by
          rw [show |(11 / 2 : ℝ) - 11 / 2| = 0 by norm_num]
          exact Int.ceil_zero
        rw [hc1, hc2]
        decide)]
    rw [hLL3]
  have hLL4 : lineLoop 3 (-1) (-1) ⊤ ((4 / 9 : ℝ) : EReal) 4 1 5 ⊤
      ((2 / 9 : ℝ) : EReal)
      ((insert (1, 5, 3) (insert (2, 5, 3) (insert (3, 5, 3) (insert (4, 5, 3) (insert (5, 5, 3) (insert (6, 5, 3) (insert (6, 4, 3) (insert (6, 3, 3) (insert (5, 3, 3) (insert (4, 3, 3) (insert (3, 3, 3) (insert (2, 3, 3) (insert (1, 3, 3) (∅)))))))))))))) : Finset Tile)
      [(1, 3), (6, 4), (6, 5)] 5 =
      (((insert (1, 3, 3) (insert (1, 4, 3) (insert (1, 5, 3) (insert (2, 5, 3) (insert (3, 5, 3) (insert (4, 5, 3) (insert (5, 5, 3) (insert (6, 5, 3) (insert (6, 4, 3) (insert (6, 3, 3) (insert (5, 3, 3) (insert (4, 3, 3) (insert (3, 3, 3) (insert (2, 3, 3) (insert (1, 3, 3) (∅)))))))))))))))) : Finset Tile),
        [(1, 3), (6, 4), (6, 5), (1, 4), (1, 3)], 1, 3) := by
    rw [lineLoop_step_yF 3 (-1) (-1) _ _ 4 3 rfl 1 5 _ _ _ _ 5
      (Or.inr (ecoe_lt_one (by norm_num))) not_top_lt]
    rw [show ((5 : ℤ) + -1) = 4 by norm_num]
    rw [if_pos (show ((4 : ℤ) ≠ 5) by norm_num)]
    rw [ecoe_add_eq (show (2 / 9 : ℝ) + 4 / 9 = 2 / 3 by norm_num)]
    rw [lineLoop_step_yF 3 (-1) (-1) _ _ 3 2 rfl 1 4 _ _ _ _ 4
      (Or.inr (ecoe_lt_one (by norm_num))) not_top_lt]
    rw [show ((4 : ℤ) + -1) = 3 by norm_num]
    rw [if_pos (show ((3 : ℤ) ≠ 4) by norm_num)]
    rw [ecoe_add_eq (show (2 / 3 : ℝ) + 4 / 9 = 10 / 9 by norm_num)]
    rw [lineLoop_stopF 3 (-1) (-1) _ _ 2 1 rfl 1 3 _ _ _ _ 3
      (by rintro (h | h)
          · exact absurd h etop_not_lt_one
          · exact absurd h (ecoe_not_lt_one (by norm_num)))]
    simp
  have hseg4 : processSegment 3 rectP4 rectP1
      ⟨((insert (1, 5, 3) (insert (2, 5, 3) (insert (3, 5, 3) (insert (4, 5, 3) (insert (5, 5, 3) (insert (6, 5, 3) (insert (6, 4, 3) (insert (6, 3, 3) (insert (5, 3, 3) (insert (4, 3, 3) (insert (3, 3, 3) (insert (2, 3, 3) (insert (1, 3, 3) (∅)))))))))))))) : Finset Tile),
        [(1, 3), (6, 4), (6, 5)], some (1, 5)⟩ =
      ⟨((insert (1, 3, 3) (insert (1, 4, 3) (insert (1, 5, 3) (insert (2, 5, 3) (insert (3, 5, 3) (insert (4, 5, 3) (insert (5, 5, 3) (insert (6, 5, 3) (insert (6, 4, 3) (insert (6, 3, 3) (insert (5, 3, 3) (insert (4, 3, 3) (insert (3, 3, 3) (insert (2, 3, 3) (insert (1, 3, 3) (∅)))))))))))))))) : Finset Tile),
        [(1, 3), (6, 4), (6, 5), (1, 4), (1, 3)], some (1, 3)⟩ := by
    rw [processSegment_eq_body, ptf_rectP4, ptf_rectP1]
    rw [segmentBody_eval_prev 3 (4 / 3) (11 / 2) (4 / 3) (13 / 4) _ _ (-1) (-1) 1 5
      ⊤ ((2 / 9 : ℝ) : EReal) ⊤ ((4 / 9 : ℝ) : EReal) 4
      (by norm_num) (by norm_num) (by norm_num)
      (floor_eval (by norm_num) (by norm_num)) (floor_eval (by norm_num) (by norm_num))
      (by rw [if_pos (by norm_num)])
      (by rw [if_neg (by norm_num)]; norm_num)
      (by rw [if_pos (by norm_num)])
      (by rw [if_neg (by norm_num)]; norm_num)
      (by
        have hc1 : ⌈|(4 / 3 : ℝ) - 4 / 3|⌉ = 0 := by
          rw [show |(4 / 3 : ℝ) - 4 / 3| = 0 by norm_num]
          exact Int.ceil_zero
        have hc2 : ⌈|(13 / 4 : ℝ) - 11 / 2|⌉ = 3 := by
          rw [show |(13 / 4 : ℝ) - 11 / 2| = 9 / 4 by norm_num]
          exact ceil_eval (by norm_num) (by norm_num)
        rw [hc1, hc2]
        decide)]
    rw [hLL4]
  have hst : ((rectRing.zip rectRing.tail).foldl
      (fun st pq => processSegment 3 pq.1 pq.2 st) ⟨∅, [], none⟩ : LineState) =
      ⟨insert (1, 3, 3) (insert (1, 4, 3) (insert (1, 5, 3) (insert (2, 5, 3)
        (insert (3, 5, 3) (insert (4, 5, 3) (insert (5, 5, 3) (insert (6, 5, 3)
        (insert (6, 4, 3) (insert (6, 3, 3) (insert (5, 3, 3) (insert (4, 3, 3)
        (insert (3, 3, 3) (insert (2, 3, 3) (insert (1, 3, 3) ∅)))))))))))))),
        [(1, 3), (6, 4), (6, 5), (1, 4), (1, 3)], some (1, 3)⟩ := by
    show processSegment 3 rectP4 rectP1 (processSegment 3 rectP3 rectP4
      (processSegment 3 rectP2 rectP3 (processSegment 3 rectP1 rectP2
        ⟨∅, [], none⟩))) = _
    rw [hseg1, hseg2, hseg3, hseg4]
  rw [line_cover_assemble rectRing 3 _ _ _ _ hst]
  rw [if_pos (rfl : ((1 : ℤ), (3 : ℤ)).2 = ((1 : ℤ), (3 : ℤ)).2)]
  rfl

/-- Evaluation of `polygon_cover` on the rectangle at zoom 3: the border
tiles are rows 3 and 5 and columns 1 and 6, and the scanline fill emits the
four interior tiles of row 4. -/
theorem polygon_cover_rect_eval :
    polygon_cover [rectRing] 3 =
      (((insert (1, 3, 3) (insert (1, 4, 3) (insert (1, 5, 3) (insert (2, 5, 3) (insert (3, 5, 3) (insert (4, 5, 3) (insert (5, 5, 3) (insert (6, 5, 3) (insert (6, 4, 3) (insert (6, 3, 3) (insert (5, 3, 3) (insert (4, 3, 3) (insert (3, 3, 3) (insert (2, 3, 3) (insert (1, 3, 3) (∅)))))))))))))))) : Finset Tile),
        ([((2, 4, 3) : Tile), (3, 4, 3), (4, 4, 3), (5, 4, 3)])) := by
  have hpr : polygonRings [rectRing] 3 =
      (((insert (1, 3, 3) (insert (1, 4, 3) (insert (1, 5, 3) (insert (2, 5, 3) (insert (3, 5, 3) (insert (4, 5, 3) (insert (5, 5, 3) (insert (6, 5, 3) (insert (6, 4, 3) (insert (6, 3, 3) (insert (5, 3, 3) (insert (4, 3, 3) (insert (3, 3, 3) (insert (2, 3, 3) (insert (1, 3, 3) (∅)))))))))))))))) : Finset Tile), [(1, 4), (6, 4)]) := by
    show (∅ ∪ (line_cover rectRing 3).1,
        [] ++ ringIntersections (line_cover rectRing 3).2) = _
    rw [line_cover_rect_eval]
    show (∅ ∪ ((insert (1, 3, 3) (insert (1, 4, 3) (insert (1, 5, 3) (insert (2, 5, 3) (insert (3, 5, 3) (insert (4, 5, 3) (insert (5, 5, 3) (insert (6, 5, 3) (insert (6, 4, 3) (insert (6, 3, 3) (insert (5, 3, 3) (insert (4, 3, 3) (insert (3, 3, 3) (insert (2, 3, 3) (insert (1, 3, 3) (∅)))))))))))))))) : Finset Tile),
        [] ++ ringIntersections [(1, 3), (6, 4), (6, 5), (1, 4)]) = _
    rw [Finset.empty_union, List.nil_append]
    rw [show ringIntersections [(1, 3), (6, 4), (6, 5), (1, 4)] = [(1, 4), (6, 4)] from
      by decide]
  have hsort : sortedIntersections [rectRing] 3 = [(1, 4), (6, 4)] := by
    unfold sortedIntersections
    rw [hpr]
    decide
  show ((polygonRings [rectRing] 3).1,
      scanlineFill (polygonRings [rectRing] 3).1 3 (sortedIntersections [rectRing] 3)) = _
  rw [hpr, hsort]
  show (((insert (1, 3, 3) (insert (1, 4, 3) (insert (1, 5, 3) (insert (2, 5, 3) (insert (3, 5, 3) (insert (4, 5, 3) (insert (5, 5, 3) (insert (6, 5, 3) (insert (6, 4, 3) (insert (6, 3, 3) (insert (5, 3, 3) (insert (4, 3, 3) (insert (3, 3, 3) (insert (2, 3, 3) (insert (1, 3, 3) (∅)))))))))))))))) : Finset Tile),
      scanlineFill ((insert (1, 3, 3) (insert (1, 4, 3) (insert (1, 5, 3) (insert (2, 5, 3) (insert (3, 5, 3) (insert (4, 5, 3) (insert (5, 5, 3) (insert (6, 5, 3) (insert (6, 4, 3) (insert (6, 3, 3) (insert (5, 3, 3) (insert (4, 3, 3) (insert (3, 3, 3) (insert (2, 3, 3) (insert (1, 3, 3) (∅)))))))))))))))) : Finset Tile) 3 [(1, 4), (6, 4)]) = _
  rw [show scanlineFill ((insert (1, 3, 3) (insert (1, 4, 3) (insert (1, 5, 3) (insert (2, 5, 3) (insert (3, 5, 3) (insert (4, 5, 3) (insert (5, 5, 3) (insert (6, 5, 3) (insert (6, 4, 3) (insert (6, 3, 3) (insert (5, 3, 3) (insert (4, 3, 3) (insert (3, 3, 3) (insert (2, 3, 3) (insert (1, 3, 3) (∅)))))))))))))))) : Finset Tile) 3 [(1, 4), (6, 4)] =
      ([((2, 4, 3) : Tile), (3, 4, 3), (4, 4, 3), (5, 4, 3)]) from by decide]

/-- C7 counterexample: a MultiPolygon consisting of the same rectangle
twice produces the interior tile `(2, 4, 3)` (at least) twice in the list
returned by `tiles`: `polygon_cover`'s interior lists are concatenated
across polygons, so the returned list is not duplicate-free. -/
theorem tiles_multipolygon_duplicates :
    ∃ l : List Tile,
      tiles (.multiPolygon [[rectRing], [rectRing]]) (ZoomInput.fixed 3) = .ok l ∧
        ¬ l.Nodup := by
  have htl : tiles (Geom.multiPolygon [[rectRing], [rectRing]]) (ZoomInput.fixed 3) =
      .ok ((([] ++ ([((2, 4, 3) : Tile), (3, 4, 3), (4, 4, 3), (5, 4, 3)])) ++ ([((2, 4, 3) : Tile), (3, 4, 3), (4, 4, 3), (5, 4, 3)])) ++
        (((∅ ∪ ((insert (1, 3, 3) (insert (1, 4, 3) (insert (1, 5, 3) (insert (2, 5, 3) (insert (3, 5, 3) (insert (4, 5, 3) (insert (5, 5, 3) (insert (6, 5, 3) (insert (6, 4, 3) (insert (6, 3, 3) (insert (5, 3, 3) (insert (4, 3, 3) (insert (3, 3, 3) (insert (2, 3, 3) (insert (1, 3, 3) (∅)))))))))))))))) : Finset Tile)) ∪ ((insert (1, 3, 3) (insert (1, 4, 3) (insert (1, 5, 3) (insert (2, 5, 3) (insert (3, 5, 3) (insert (4, 5, 3) (insert (5, 5, 3) (insert (6, 5, 3) (insert (6, 4, 3) (insert (6, 3, 3) (insert (5, 3, 3) (insert (4, 3, 3) (insert (3, 3, 3) (insert (2, 3, 3) (insert (1, 3, 3) (∅)))))))))))))))) : Finset Tile)).toList)) := by
    show Except.ok ((([] ++ (polygon_cover [rectRing] 3).2) ++ (polygon_cover [rectRing] 3).2)
        ++ ((∅ ∪ (polygon_cover [rectRing] 3).1) ∪ (polygon_cover [rectRing] 3).1).toList) = _
    rw [polygon_cover_rect_eval]
  refine ⟨_, htl, ?_⟩
  intro hnd
  rw [List.nodup_append] at hnd
  obtain ⟨h1, -, -⟩ := hnd
  rw [List.nodup_append] at h1
  obtain ⟨-, -, hdisj⟩ := h1
  exact hdisj
    (by decide : ((2, 4, 3) : Tile) ∈ [] ++ [((2, 4, 3) : Tile), (3, 4, 3), (4, 4, 3), (5, 4, 3)])
    (by decide : ((2, 4, 3) : Tile) ∈ [((2, 4, 3) : Tile), (3, 4, 3), (4, 4, 3), (5, 4, 3)])

/-! ### Extrapolation over a zoom range (claim C3) and duplicate-freeness (claim C7) -/

theorem extraMerge_eq (minZ z : ℤ) (st : ExtraState) (t : Tile) :
    extraMerge minZ z st t =
      if t.1 % 2 = 0 ∧ t.2.1 % 2 = 0 then
        if ((t.1 + 1, t.2.1, z) : Tile) ∈ st.hash ∧
            ((t.1, t.2.1 + 1, z) : Tile) ∈ st.hash ∧
            ((t.1 + 1, t.2.1 + 1, z) : Tile) ∈ st.hash then
          if z - 1 = minZ then
            ⟨(((st.hash.erase t).erase (t.1 + 1, t.2.1, z)).erase
                (t.1, t.2.1 + 1, z)).erase (t.1 + 1, t.2.1 + 1, z),
              st.parentHash, st.parents, st.finals ++ [(t.1 / 2, t.2.1 / 2, z - 1)]⟩
          else
            ⟨(((st.hash.erase t).erase (t.1 + 1, t.2.1, z)).erase
                (t.1, t.2.1 + 1, z)).erase (t.1 + 1, t.2.1 + 1, z),
              insert ((t.1 / 2, t.2.1 / 2, z - 1) : Tile) st.parentHash,
              st.parents ++ [(t.1 / 2, t.2.1 / 2, z - 1)], st.finals⟩
        else st
      else st := rfl

theorem extraPass_eq (minZ z : ℤ) (tiles : List Tile) (hash : Finset Tile)
    (finals : List Tile) :
    extraPass minZ z tiles hash finals =
      ⟨(tiles.foldl (extraMerge minZ z) ⟨hash, ∅, [], finals⟩).hash,
       (tiles.foldl (extraMerge minZ z) ⟨hash, ∅, [], finals⟩).parentHash,
       (tiles.foldl (extraMerge minZ z) ⟨hash, ∅, [], finals⟩).parents,
       (tiles.foldl (extraMerge minZ z) ⟨hash, ∅, [], finals⟩).finals ++
         tiles.filter
           (fun t => t ∈ (tiles.foldl (extraMerge minZ z) ⟨hash, ∅, [], finals⟩).hash)⟩ :=
  rfl

theorem int_ediv_ediv (n : ℤ) {b c : ℤ} (hb : 0 < b) (hc : 0 < c) :
    n / b / c = n / (b * c) := by
  have h : ∀ q : ℤ, q ≤ n / b / c ↔ q ≤ n / (b * c) := by
    intro q
    rw [Int.le_ediv_iff_mul_le hc, Int.le_ediv_iff_mul_le hb,
      Int.le_ediv_iff_mul_le (mul_pos hb hc), mul_assoc, mul_comm c b]
  exact le_antisymm ((h _).mp le_rfl) ((h _).mpr le_rfl)

/-- A cell at zoom `zmax` descends from the merged parent `(x/2, y/2, z-1)` of
an even-even tile exactly when it descends from one of the four quad tiles. -/
theorem descendant_quad (zmax z x y : ℤ) (hx : x % 2 = 0) (hy : y % 2 = 0)
    (hz : z ≤ zmax) (c : Tile) :
    isDescendantCell zmax c ((x / 2, y / 2, z - 1) : Tile) ↔
      (isDescendantCell zmax c ((x, y, z) : Tile) ∨
       isDescendantCell zmax c ((x + 1, y, z) : Tile) ∨
       isDescendantCell zmax c ((x, y + 1, z) : Tile) ∨
       isDescendantCell zmax c ((x + 1, y + 1, z) : Tile)) := by
  unfold isDescendantCell
  dsimp only
  have hk : (zmax - (z - 1)).toNat = (zmax - z).toNat + 1 := by omega
  have hA : (0 : ℤ) < 2 ^ (zmax - z).toNat := pow_pos (by norm_num) _
  simp only [hk, pow_succ]
  rw [show c.1 / ((2 : ℤ) ^ (zmax - z).toNat * 2) = c.1 / 2 ^ (zmax - z).toNat / 2 from
        (int_ediv_ediv _ hA (by norm_num)).symm,
      show c.2.1 / ((2 : ℤ) ^ (zmax - z).toNat * 2) = c.2.1 / 2 ^ (zmax - z).toNat / 2 from
        (int_ediv_ediv _ hA (by norm_num)).symm]
  generalize c.1 / (2 : ℤ) ^ (zmax - z).toNat = u
  generalize c.2.1 / (2 : ℤ) ^ (zmax - z).toNat = v
  omega

theorem isDescendantCell_refl {zmax : ℤ} {c : Tile} (h : c.2.2 = zmax) :
    isDescendantCell zmax c c := by
  refine ⟨le_of_eq h, h, ?_, ?_⟩ <;>
    rw [show (zmax - c.2.2).toNat = 0 by omega, pow_zero, Int.ediv_one]

theorem isDescendantCell_self_zoom {zmax : ℤ} {c t : Tile}
    (h : isDescendantCell zmax c t) (hz : t.2.2 = zmax) : c = t := by
  obtain ⟨-, hcz, hx, hy⟩ := h
  rw [show (zmax - t.2.2).toNat = 0 by omega, pow_zero, Int.ediv_one] at hx hy
  exact Prod.ext_iff.mpr ⟨hx, Prod.ext_iff.mpr ⟨hy, hcz.trans hz.symm⟩⟩

/-- Exchanging a complete quad for its parent preserves exact coverage. -/
theorem cover_transfer (zmax : ℤ) (T : List Tile) (M M' : Tile → Prop)
    (u t2 t3 t4 p : Tile)
    (hquadM : M u ∧ M t2 ∧ M t3 ∧ M t4)
    (hdq : ∀ c, isDescendantCell zmax c p ↔
      (isDescendantCell zmax c u ∨ isDescendantCell zmax c t2 ∨
       isDescendantCell zmax c t3 ∨ isDescendantCell zmax c t4))
    (hM' : ∀ x, M' x ↔ (x = p ∨ (M x ∧ ¬(x = u ∨ x = t2 ∨ x = t3 ∨ x = t4))))
    (hsub : ∀ x, M x → ∀ c, isDescendantCell zmax c x → c ∈ T)
    (hex : ∀ c ∈ T, ∃! t, M t ∧ isDescendantCell zmax c t) :
    (∀ x, M' x → ∀ c, isDescendantCell zmax c x → c ∈ T) ∧
    (∀ c ∈ T, ∃! t, M' t ∧ isDescendantCell zmax c t) := by
  constructor
  · intro x hx c hdc
    rcases (hM' x).mp hx with rfl | ⟨hMx, -⟩
    · rcases (hdq c).mp hdc with h | h | h | h
      exacts [hsub u hquadM.1 c h, hsub t2 hquadM.2.1 c h,
        hsub t3 hquadM.2.2.1 c h, hsub t4 hquadM.2.2.2 c h]
    · exact hsub x hMx c hdc
  · intro c hcT
    obtain ⟨w, ⟨hwM, hwd⟩, huniq⟩ := hex c hcT
    by_cases hwq : w = u ∨ w = t2 ∨ w = t3 ∨ w = t4
    · refine ⟨p, ⟨(hM' p).mpr (Or.inl rfl), ?_⟩, ?_⟩
      · refine (hdq c).mpr ?_
        rcases hwq with rfl | rfl | rfl | rfl
        exacts [Or.inl hwd, Or.inr (Or.inl hwd), Or.inr (Or.inr (Or.inl hwd)),
          Or.inr (Or.inr (Or.inr hwd))]
      · rintro y ⟨hyM', hyd⟩
        rcases (hM' y).mp hyM' with rfl | ⟨hMy, hyq⟩
        · rfl
        · exact absurd ((huniq y ⟨hMy, hyd⟩).symm ▸ hwq) hyq
    · refine ⟨w, ⟨(hM' w).mpr (Or.inr ⟨hwM, hwq⟩), hwd⟩, ?_⟩
      rintro y ⟨hyM', hyd⟩
      rcases (hM' y).mp hyM' with rfl | ⟨hMy, -⟩
      · rcases (hdq c).mp hyd with h | h | h | h
        exacts [absurd (Or.inl (huniq u ⟨hquadM.1, h⟩).symm) hwq,
          absurd (Or.inr (Or.inl (huniq t2 ⟨hquadM.2.1, h⟩).symm)) hwq,
          absurd (Or.inr (Or.inr (Or.inl (huniq t3 ⟨hquadM.2.2.1, h⟩).symm))) hwq,
          absurd (Or.inr (Or.inr (Or.inr (huniq t4 ⟨hquadM.2.2.2, h⟩).symm))) hwq]
      · exact huniq y ⟨hMy, hyd⟩

theorem extraMerge_inv (zmin zmax z : ℤ) (T tl : List Tile)
    (hzlt : zmin < z) (hzle : z ≤ zmax) (hnd : tl.Nodup)
    (u : Tile) (Q P : List Tile) (hPQ : tl = P ++ u :: Q)
    (st : ExtraState) (inv : PassInv zmin zmax z T tl (u :: Q) st) :
    PassInv zmin zmax z T tl Q (extraMerge zmin z st u) := by
  by_cases he : u.1 % 2 = 0 ∧ u.2.1 % 2 = 0
  · by_cases hs : ((u.1 + 1, u.2.1, z) : Tile) ∈ st.hash ∧
        ((u.1, u.2.1 + 1, z) : Tile) ∈ st.hash ∧
        ((u.1 + 1, u.2.1 + 1, z) : Tile) ∈ st.hash
    · -- the merging case
      have huhash : u ∈ st.hash := inv.hQ u (List.mem_cons_self u Q) he.1 he.2
      have huz : u.2.2 = z := inv.hashz u huhash
      have hueq : ((u.1, u.2.1, z) : Tile) = u :=
        Prod.ext_iff.mpr ⟨rfl, Prod.ext_iff.mpr ⟨rfl, huz.symm⟩⟩
      have h2u : 2 * (u.1 / 2) = u.1 := by omega
      have h2v : 2 * (u.2.1 / 2) = u.2.1 := by omega
      have hlead : ((2 * (u.1 / 2), 2 * (u.2.1 / 2), z) : Tile) = u := by
        rw [h2u, h2v]
        exact hueq
      have hleadmem : ((2 * (u.1 / 2), 2 * (u.2.1 / 2), z) : Tile) ∈ st.hash := by
        rw [hlead]
        exact huhash
      have huQ : u ∉ Q := by
        have h1 : (u :: Q).Nodup := (List.nodup_append.mp (hPQ ▸ hnd)).2.1
        exact (List.nodup_cons.mp h1).1
      have hHsub : (((st.hash.erase u).erase (u.1 + 1, u.2.1, z)).erase
          (u.1, u.2.1 + 1, z)).erase (u.1 + 1, u.2.1 + 1, z) ⊆ st.hash := by
        intro a ha
        exact Finset.mem_of_mem_erase (Finset.mem_of_mem_erase
          (Finset.mem_of_mem_erase (Finset.mem_of_mem_erase ha)))
      have hHmem : ∀ a : Tile,
          a ∈ (((st.hash.erase u).erase (u.1 + 1, u.2.1, z)).erase
            (u.1, u.2.1 + 1, z)).erase (u.1 + 1, u.2.1 + 1, z) ↔
          a ∈ st.hash ∧ a ≠ u ∧ a ≠ (u.1 + 1, u.2.1, z) ∧
            a ≠ (u.1, u.2.1 + 1, z) ∧ a ≠ (u.1 + 1, u.2.1 + 1, z) := by
        intro a
        simp only [Finset.mem_erase]
        tauto
      have hpnotparents : ((u.1 / 2, u.2.1 / 2, z - 1) : Tile) ∉ st.parents := by
        intro hmem
        exact inv.leadgone _ (Or.inl hmem) hleadmem
      have hpnotfinals : ((u.1 / 2, u.2.1 / 2, z - 1) : Tile) ∉ st.finals := by
        intro hmem
        rcases (inv.finz _ hmem).2 with ⟨hz1, -⟩ | hz3
        · exact inv.leadgone _ (Or.inr ⟨hmem, hz1⟩) hleadmem
        · exact absurd (show z < z - 1 from hz3) (by omega)
      have hquadzoom : ∀ x : Tile, x ∈ st.finals ∨ x ∈ st.parents →
          x ≠ u ∧ x ≠ (u.1 + 1, u.2.1, z) ∧ x ≠ (u.1, u.2.1 + 1, z) ∧
            x ≠ (u.1 + 1, u.2.1 + 1, z) := by
        intro x hx
        have hxz : x.2.2 ≠ z := by
          rcases hx with hx | hx
          · rcases (inv.finz x hx).2 with ⟨h1, -⟩ | h1 <;> omega
          · have := inv.parz x hx
            omega
        refine ⟨?_, ?_, ?_, ?_⟩ <;> intro hEq <;> subst hEq
        · exact hxz huz
        · exact hxz rfl
        · exact hxz rfl
        · exact hxz rfl
      have hquadM : (u ∈ st.finals ∨ u ∈ st.parents ∨ u ∈ st.hash) ∧
          (((u.1 + 1, u.2.1, z) : Tile) ∈ st.finals ∨
            ((u.1 + 1, u.2.1, z) : Tile) ∈ st.parents ∨
            ((u.1 + 1, u.2.1, z) : Tile) ∈ st.hash) ∧
          (((u.1, u.2.1 + 1, z) : Tile) ∈ st.finals ∨
            ((u.1, u.2.1 + 1, z) : Tile) ∈ st.parents ∨
            ((u.1, u.2.1 + 1, z) : Tile) ∈ st.hash) ∧
          (((u.1 + 1, u.2.1 + 1, z) : Tile) ∈ st.finals ∨
            ((u.1 + 1, u.2.1 + 1, z) : Tile) ∈ st.parents ∨
            ((u.1 + 1, u.2.1 + 1, z) : Tile) ∈ st.hash) :=
        ⟨Or.inr (Or.inr huhash), Or.inr (Or.inr hs.1),
          Or.inr (Or.inr hs.2.1), Or.inr (Or.inr hs.2.2)⟩
      have hdqu : ∀ c, isDescendantCell zmax c ((u.1 / 2, u.2.1 / 2, z - 1) : Tile) ↔
          (isDescendantCell zmax c u ∨
           isDescendantCell zmax c ((u.1 + 1, u.2.1, z) : Tile) ∨
           isDescendantCell zmax c ((u.1, u.2.1 + 1, z) : Tile) ∨
           isDescendantCell zmax c ((u.1 + 1, u.2.1 + 1, z) : Tile)) := by
        intro c
        rw [descendant_quad zmax z u.1 u.2.1 he.1 he.2 hzle c, hueq]
      have hQ' : ∀ v ∈ Q, v.1 % 2 = 0 → v.2.1 % 2 = 0 →
          v ∈ (((st.hash.erase u).erase (u.1 + 1, u.2.1, z)).erase
            (u.1, u.2.1 + 1, z)).erase (u.1 + 1, u.2.1 + 1, z) := by
        intro v hv hv1 hv2
        refine (hHmem v).mpr
          ⟨inv.hQ v (List.mem_cons_of_mem u hv) hv1 hv2, ?_, ?_, ?_, ?_⟩
        · intro hEq
          exact huQ (hEq ▸ hv)
        · intro hEq
          rw [hEq] at hv1
          exact absurd (show (u.1 + 1) % 2 = 0 from hv1) (by omega)
        · intro hEq
          rw [hEq] at hv2
          exact absurd (show (u.2.1 + 1) % 2 = 0 from hv2) (by omega)
        · intro hEq
          rw [hEq] at hv1
          exact absurd (show (u.1 + 1) % 2 = 0 from hv1) (by omega)
      by_cases hm : z - 1 = zmin
      · rw [extraMerge_eq, if_pos he, if_pos hs, if_pos hm]
        have hM' : ∀ x : Tile,
            (x ∈ st.finals ++ [((u.1 / 2, u.2.1 / 2, z - 1) : Tile)] ∨
              x ∈ st.parents ∨
              x ∈ (((st.hash.erase u).erase (u.1 + 1, u.2.1, z)).erase
                (u.1, u.2.1 + 1, z)).erase (u.1 + 1, u.2.1 + 1, z)) ↔
            (x = ((u.1 / 2, u.2.1 / 2, z - 1) : Tile) ∨
              ((x ∈ st.finals ∨ x ∈ st.parents ∨ x ∈ st.hash) ∧
                ¬(x = u ∨ x = (u.1 + 1, u.2.1, z) ∨ x = (u.1, u.2.1 + 1, z) ∨
                  x = (u.1 + 1, u.2.1 + 1, z)))) := by
          intro x
          rw [List.mem_append, List.mem_singleton, hHmem]
          constructor
          · rintro ((hx | rfl) | hx | hx)
            · refine Or.inr ⟨Or.inl hx, ?_⟩
              have hne := hquadzoom x (Or.inl hx)
              exact fun h => h.elim hne.1 (fun h => h.elim hne.2.1
                (fun h => h.elim hne.2.2.1 hne.2.2.2))
            · exact Or.inl rfl
            · refine Or.inr ⟨Or.inr (Or.inl hx), ?_⟩
              have hne := hquadzoom x (Or.inr hx)
              exact fun h => h.elim hne.1 (fun h => h.elim hne.2.1
                (fun h => h.elim hne.2.2.1 hne.2.2.2))
            · exact Or.inr ⟨Or.inr (Or.inr hx.1), fun h => h.elim hx.2.1
                (fun h => h.elim hx.2.2.1 (fun h => h.elim hx.2.2.2.1 hx.2.2.2.2))⟩
          · rintro (rfl | ⟨hx, hq⟩)
            · exact Or.inl (Or.inr rfl)
            · rcases hx with hx | hx | hx
              · exact Or.inl (Or.inl hx)
              · exact Or.inr (Or.inl hx)
              · exact Or.inr (Or.inr ⟨hx, fun h => hq (Or.inl h),
                  fun h => hq (Or.inr (Or.inl h)),
                  fun h => hq (Or.inr (Or.inr (Or.inl h))),
                  fun h => hq (Or.inr (Or.inr (Or.inr h)))⟩)
        have hct := cover_transfer zmax T _ _ u (u.1 + 1, u.2.1, z)
          (u.1, u.2.1 + 1, z) (u.1 + 1, u.2.1 + 1, z) (u.1 / 2, u.2.1 / 2, z - 1)
          hquadM hdqu hM' inv.subcov inv.excov
        refine ⟨fun t ht => inv.hashz t (hHsub ht),
          Finset.Subset.trans hHsub inv.hashsub, hQ', inv.parz, inv.parnd,
          inv.parhash, inv.parmin, ?_, ?_, ?_, hct.1, hct.2⟩
        · intro t ht
          rcases List.mem_append.mp ht with ht | ht
          · exact inv.finz t ht
          · rw [List.mem_singleton.mp ht]
            exact ⟨⟨show zmin ≤ z - 1 by omega, show z - 1 ≤ zmax by omega⟩,
              Or.inl ⟨rfl, hm⟩⟩
        · rw [List.nodup_append]
          exact ⟨inv.finnd, List.nodup_singleton _,
            fun a ha hb => hpnotfinals ((List.mem_singleton.mp hb) ▸ ha)⟩
        · intro q hq hlq
          have hqhash := (hHmem _).mp hlq
          rcases hq with hq | ⟨hq, hqz⟩
          · exact inv.leadgone q (Or.inl hq) hqhash.1
          · rcases List.mem_append.mp hq with hq | hq
            · exact inv.leadgone q (Or.inr ⟨hq, hqz⟩) hqhash.1
            · exact hqhash.2.1 (by rw [List.mem_singleton.mp hq]; exact hlead)
      · rw [extraMerge_eq, if_pos he, if_pos hs, if_neg hm]
        have hM' : ∀ x : Tile,
            (x ∈ st.finals ∨
              x ∈ st.parents ++ [((u.1 / 2, u.2.1 / 2, z - 1) : Tile)] ∨
              x ∈ (((st.hash.erase u).erase (u.1 + 1, u.2.1, z)).erase
                (u.1, u.2.1 + 1, z)).erase (u.1 + 1, u.2.1 + 1, z)) ↔
            (x = ((u.1 / 2, u.2.1 / 2, z - 1) : Tile) ∨
              ((x ∈ st.finals ∨ x ∈ st.parents ∨ x ∈ st.hash) ∧
                ¬(x = u ∨ x = (u.1 + 1, u.2.1, z) ∨ x = (u.1, u.2.1 + 1, z) ∨
                  x = (u.1 + 1, u.2.1 + 1, z)))) := by
          intro x
          rw [List.mem_append, List.mem_singleton, hHmem]
          constructor
          · rintro (hx | (hx | rfl) | hx)
            · refine Or.inr ⟨Or.inl hx, ?_⟩
              have hne := hquadzoom x (Or.inl hx)
              exact fun h => h.elim hne.1 (fun h => h.elim hne.2.1
                (fun h => h.elim hne.2.2.1 hne.2.2.2))
            · refine Or.inr ⟨Or.inr (Or.inl hx), ?_⟩
              have hne := hquadzoom x (Or.inr hx)
              exact fun h => h.elim hne.1 (fun h => h.elim hne.2.1
                (fun h => h.elim hne.2.2.1 hne.2.2.2))
            · exact Or.inl rfl
            · exact Or.inr ⟨Or.inr (Or.inr hx.1), fun h => h.elim hx.2.1
                (fun h => h.elim hx.2.2.1 (fun h => h.elim hx.2.2.2.1 hx.2.2.2.2))⟩
          · rintro (rfl | ⟨hx, hq⟩)
            · exact Or.inr (Or.inl (Or.inr rfl))
            · rcases hx with hx | hx | hx
              · exact Or.inl hx
              · exact Or.inr (Or.inl (Or.inl hx))
              · exact Or.inr (Or.inr ⟨hx, fun h => hq (Or.inl h),
                  fun h => hq (Or.inr (Or.inl h)),
                  fun h => hq (Or.inr (Or.inr (Or.inl h))),
                  fun h => hq (Or.inr (Or.inr (Or.inr h)))⟩)
        have hct := cover_transfer zmax T _ _ u (u.1 + 1, u.2.1, z)
          (u.1, u.2.1 + 1, z) (u.1 + 1, u.2.1 + 1, z) (u.1 / 2, u.2.1 / 2, z - 1)
          hquadM hdqu hM' inv.subcov inv.excov
        refine ⟨fun t ht => inv.hashz t (hHsub ht),
          Finset.Subset.trans hHsub inv.hashsub, hQ', ?_, ?_, ?_,
          fun h => absurd h hm, inv.finz, inv.finnd, ?_, hct.1, hct.2⟩
        · intro t ht
          rcases List.mem_append.mp ht with ht | ht
          · exact inv.parz t ht
          · rw [List.mem_singleton.mp ht]
        · rw [List.nodup_append]
          exact ⟨inv.parnd, List.nodup_singleton _,
            fun a ha hb => hpnotparents ((List.mem_singleton.mp hb) ▸ ha)⟩
        · rw [inv.parhash]
          ext a
          simp [or_comm]
        · intro q hq hlq
          have hqhash := (hHmem _).mp hlq
          rcases hq with hq | ⟨hq, hqz⟩
          · rcases List.mem_append.mp hq with hq | hq
            · exact inv.leadgone q (Or.inl hq) hqhash.1
            · exact hqhash.2.1 (by rw [List.mem_singleton.mp hq]; exact hlead)
          · exact inv.leadgone q (Or.inr ⟨hq, hqz⟩) hqhash.1
    · rw [extraMerge_eq, if_pos he, if_neg hs]
      exact ⟨inv.hashz, inv.hashsub,
        fun v hv h1 h2 => inv.hQ v (List.mem_cons_of_mem u hv) h1 h2,
        inv.parz, inv.parnd, inv.parhash, inv.parmin, inv.finz, inv.finnd,
        inv.leadgone, inv.subcov, inv.excov⟩
  · rw [extraMerge_eq, if_neg he]
    exact ⟨inv.hashz, inv.hashsub,
      fun v hv h1 h2 => inv.hQ v (List.mem_cons_of_mem u hv) h1 h2,
      inv.parz, inv.parnd, inv.parhash, inv.parmin, inv.finz, inv.finnd,
      inv.leadgone, inv.subcov, inv.excov⟩

theorem extraMerge_foldl_inv (zmin zmax z : ℤ) (T tl : List Tile)
    (hzlt : zmin < z) (hzle : z ≤ zmax) (hnd : tl.Nodup) :
    ∀ (Q P : List Tile) (st : ExtraState), tl = P ++ Q →
      PassInv zmin zmax z T tl Q st →
      PassInv zmin zmax z T tl [] (Q.foldl (extraMerge zmin z) st)
  | [], _, _, _, inv => inv
  | u :: Q, P, st, hPQ, inv => by
      rw [List.foldl_cons]
      exact extraMerge_foldl_inv zmin zmax z T tl hzlt hzle hnd Q (P ++ [u]) _
        (by rw [hPQ]; simp)
        (extraMerge_inv zmin zmax z T tl hzlt hzle hnd u Q P hPQ st inv)

theorem extraPass_spec (zmin zmax z : ℤ) (T tl finals : List Tile)
    (hzgt : zmin < z) (hzle : z ≤ zmax) (hnd : tl.Nodup)
    (hlvl : ∀ t ∈ tl, t.2.2 = z)
    (hfinz : ∀ t ∈ finals, (zmin ≤ t.2.2 ∧ t.2.2 ≤ zmax) ∧ z < t.2.2)
    (hfinnd : finals.Nodup)
    (hsub : ∀ t : Tile, (t ∈ finals ∨ t ∈ tl) → ∀ c, isDescendantCell zmax c t → c ∈ T)
    (hex : ∀ c ∈ T, ∃! t : Tile, (t ∈ finals ∨ t ∈ tl) ∧ isDescendantCell zmax c t) :
    (∀ t ∈ (extraPass zmin z tl tl.toFinset finals).parents, t.2.2 = z - 1) ∧
    (extraPass zmin z tl tl.toFinset finals).parents.Nodup ∧
    (extraPass zmin z tl tl.toFinset finals).parentHash =
      (extraPass zmin z tl tl.toFinset finals).parents.toFinset ∧
    (z - 1 = zmin → (extraPass zmin z tl tl.toFinset finals).parents = []) ∧
    (∀ t ∈ (extraPass zmin z tl tl.toFinset finals).finals,
      (zmin ≤ t.2.2 ∧ t.2.2 ≤ zmax) ∧ (z - 1 < t.2.2 ∨ z - 1 = zmin)) ∧
    (extraPass zmin z tl tl.toFinset finals).finals.Nodup ∧
    (∀ t : Tile, (t ∈ (extraPass zmin z tl tl.toFinset finals).finals ∨
        t ∈ (extraPass zmin z tl tl.toFinset finals).parents) →
      ∀ c, isDescendantCell zmax c t → c ∈ T) ∧
    (∀ c ∈ T, ∃! t : Tile, (t ∈ (extraPass zmin z tl tl.toFinset finals).finals ∨
        t ∈ (extraPass zmin z tl tl.toFinset finals).parents) ∧
      isDescendantCell zmax c t) := by
  have hinit : PassInv zmin zmax z T tl tl ⟨tl.toFinset, ∅, [], finals⟩ := by
    refine ⟨?_, fun a ha => ha, fun v hv _ _ => List.mem_toFinset.mpr hv,
      fun t ht => absurd ht (List.not_mem_nil t), List.nodup_nil,
      by simp, fun _ => rfl, ?_, hfinnd, ?_, ?_, ?_⟩
    · intro t ht
      exact hlvl t (List.mem_toFinset.mp ht)
    · intro t ht
      exact ⟨(hfinz t ht).1, Or.inr (hfinz t ht).2⟩
    · intro p hp
      rcases hp with hp | ⟨hp, hpz⟩
      · exact absurd hp (List.not_mem_nil p)
      · have := (hfinz p hp).2
        intro
        omega
    · intro t ht c hdc
      rcases ht with ht | ht | ht
      · exact hsub t (Or.inl ht) c hdc
      · exact absurd ht (List.not_mem_nil t)
      · exact hsub t (Or.inr (List.mem_toFinset.mp ht)) c hdc
    · intro c hc
      obtain ⟨w, ⟨hwM, hwd⟩, huniq⟩ := hex c hc
      refine ⟨w, ⟨?_, hwd⟩, ?_⟩
      · rcases hwM with hw | hw
        · exact Or.inl hw
        · exact Or.inr (Or.inr (List.mem_toFinset.mpr hw))
      · rintro y ⟨hy, hyd⟩
        rcases hy with hy | hy | hy
        · exact huniq y ⟨Or.inl hy, hyd⟩
        · exact absurd hy (List.not_mem_nil y)
        · exact huniq y ⟨Or.inr (List.mem_toFinset.mp hy), hyd⟩
  have hfold : PassInv zmin zmax z T tl []
      (tl.foldl (extraMerge zmin z) ⟨tl.toFinset, ∅, [], finals⟩) :=
    extraMerge_foldl_inv zmin zmax z T tl hzgt hzle hnd tl [] _ rfl hinit
  rw [extraPass_eq]
  have hFL : ∀ a : Tile,
      a ∈ tl.filter
        (fun t => t ∈ (tl.foldl (extraMerge zmin z) ⟨tl.toFinset, ∅, [], finals⟩).hash) ↔
      a ∈ (tl.foldl (extraMerge zmin z) ⟨tl.toFinset, ∅, [], finals⟩).hash := by
    intro a
    simp only [List.mem_filter, decide_eq_true_eq]
    constructor
    · exact fun h => h.2
    · exact fun h => ⟨List.mem_toFinset.mp (hfold.hashsub h), h⟩
  have htrans : ∀ y : Tile,
      (y ∈ (tl.foldl (extraMerge zmin z) ⟨tl.toFinset, ∅, [], finals⟩).finals ++
          tl.filter
            (fun t => t ∈ (tl.foldl (extraMerge zmin z) ⟨tl.toFinset, ∅, [], finals⟩).hash) ∨
        y ∈ (tl.foldl (extraMerge zmin z) ⟨tl.toFinset, ∅, [], finals⟩).parents) ↔
      (y ∈ (tl.foldl (extraMerge zmin z) ⟨tl.toFinset, ∅, [], finals⟩).finals ∨
        y ∈ (tl.foldl (extraMerge zmin z) ⟨tl.toFinset, ∅, [], finals⟩).parents ∨
        y ∈ (tl.foldl (extraMerge zmin z) ⟨tl.toFinset, ∅, [], finals⟩).hash) := by
    intro y
    rw [List.mem_append, hFL y]
    tauto
  refine ⟨hfold.parz, hfold.parnd, hfold.parhash, hfold.parmin, ?_, ?_, ?_, ?_⟩
  · intro t ht
    rcases List.mem_append.mp ht with ht | ht
    · rcases (hfold.finz t ht).2 with ⟨h1, h2⟩ | h1
      · exact ⟨(hfold.finz t ht).1, Or.inr h2⟩
      · exact ⟨(hfold.finz t ht).1, Or.inl (by omega)⟩
    · have haz : t.2.2 = z := hfold.hashz t ((hFL t).mp ht)
      exact ⟨⟨by omega, by omega⟩, Or.inl (by omega)⟩
  · rw [List.nodup_append]
    refine ⟨hfold.finnd, hnd.filter _, ?_⟩
    intro a ha hb
    have haz : a.2.2 = z := hfold.hashz a ((hFL a).mp hb)
    rcases (hfold.finz a ha).2 with ⟨h1, -⟩ | h1 <;> omega
  · intro t ht c hdc
    rcases (htrans t).mp ht with h | h | h
    · exact hfold.subcov t (Or.inl h) c hdc
    · exact hfold.subcov t (Or.inr (Or.inl h)) c hdc
    · exact hfold.subcov t (Or.inr (Or.inr h)) c hdc
  · intro c hc
    obtain ⟨w, ⟨hwM, hwd⟩, huniq⟩ := hfold.excov c hc
    refine ⟨w, ⟨(htrans w).mpr hwM, hwd⟩, ?_⟩
    rintro y ⟨hy, hyd⟩
    exact huniq y ⟨(htrans y).mp hy, hyd⟩

theorem extraLoop_spec (zmin zmax : ℤ) (T : List Tile) :
    ∀ (n : ℕ) (z : ℤ) (tl : List Tile) (hash : Finset Tile) (finals : List Tile),
      n = (z - zmin).toNat → zmin ≤ z → z ≤ zmax →
      hash = tl.toFinset → tl.Nodup → (∀ t ∈ tl, t.2.2 = z) →
      (z = zmin → tl = []) →
      (∀ t ∈ finals, (zmin ≤ t.2.2 ∧ t.2.2 ≤ zmax) ∧ (z < t.2.2 ∨ z = zmin)) →
      finals.Nodup →
      (∀ t : Tile, (t ∈ finals ∨ t ∈ tl) → ∀ c, isDescendantCell zmax c t → c ∈ T) →
      (∀ c ∈ T, ∃! t : Tile, (t ∈ finals ∨ t ∈ tl) ∧ isDescendantCell zmax c t) →
      (extraLoop zmin n z tl hash finals).Nodup ∧
      (∀ t ∈ extraLoop zmin n z tl hash finals, zmin ≤ t.2.2 ∧ t.2.2 ≤ zmax) ∧
      (∀ t ∈ extraLoop zmin n z tl hash finals, ∀ c,
        isDescendantCell zmax c t → c ∈ T) ∧
      (∀ c ∈ T, ∃! t, t ∈ extraLoop zmin n z tl hash finals ∧
        isDescendantCell zmax c t) := by
  intro n
  induction n with
  | zero =>
      intro z tl hash finals hn hzge hzle hhash hnd hlvl hempty hfinz hfinnd hsub hex
      have hz : z = zmin := by omega
      have htl : tl = [] := hempty hz
      subst htl
      rw [extraLoop]
      refine ⟨hfinnd, fun t ht => (hfinz t ht).1, fun t ht => hsub t (Or.inl ht), ?_⟩
      intro c hc
      obtain ⟨w, ⟨hwM, hwd⟩, huniq⟩ := hex c hc
      rcases hwM with hw | hw
      · exact ⟨w, ⟨hw, hwd⟩, fun y hy => huniq y ⟨Or.inl hy.1, hy.2⟩⟩
      · exact absurd hw (List.not_mem_nil w)
  | succ m ih =>
      intro z tl hash finals hn hzge hzle hhash hnd hlvl hempty hfinz hfinnd hsub hex
      have hzgt : zmin < z := by omega
      rw [extraLoop, if_pos (show z > zmin from hzgt)]
      subst hhash
      obtain ⟨hparz, hparnd, hparhash, hparmin, hfinz', hfinnd', hsub', hex'⟩ :=
        extraPass_spec zmin zmax z T tl finals hzgt hzle hnd hlvl
          (fun t ht => ⟨(hfinz t ht).1, by
            rcases (hfinz t ht).2 with h | h
            · exact h
            · omega⟩)
          hfinnd hsub hex
      exact ih (z - 1) (extraPass zmin z tl tl.toFinset finals).parents
        (extraPass zmin z tl tl.toFinset finals).parentHash
        (extraPass zmin z tl tl.toFinset finals).finals
        (by omega) (by omega) (by omega) hparhash hparnd hparz hparmin
        (fun t ht => ⟨(hfinz' t ht).1, by
          rcases (hfinz' t ht).2 with h | h
          · exact Or.inl h
          · exact Or.inr h⟩)
        hfinnd' hsub' hex'

theorem extrapolate_spec (T : List Tile) (zmin zmax : ℤ)
    (hlt : zmin < zmax) (hnd : T.Nodup) (hlvl : ∀ t ∈ T, t.2.2 = zmax) :
    (_extrapolate_zoom_range T (zmin, zmax)).Nodup ∧
    (∀ t ∈ _extrapolate_zoom_range T (zmin, zmax), zmin ≤ t.2.2 ∧ t.2.2 ≤ zmax) ∧
    (∀ t ∈ _extrapolate_zoom_range T (zmin, zmax), ∀ c,
      isDescendantCell zmax c t → c ∈ T) ∧
    (∀ c ∈ T, ∃! t, t ∈ _extrapolate_zoom_range T (zmin, zmax) ∧
      isDescendantCell zmax c t) :=
  extraLoop_spec zmin zmax T (zmax - zmin).toNat zmax T T.toFinset []
    rfl (le_of_lt hlt) le_rfl rfl hnd hlvl
    (fun h => absurd h (by omega))
    (fun t ht => absurd ht (List.not_mem_nil t))
    List.nodup_nil
    (fun t ht c hdc => by
      rcases ht with ht | ht
      · exact absurd ht (List.not_mem_nil t)
      · rw [isDescendantCell_self_zoom hdc (hlvl t ht)]
        exact ht)
    (fun c hc =>
      ⟨c, ⟨Or.inr hc, isDescendantCell_refl (hlvl c hc)⟩, by
        rintro y ⟨hy | hy, hyd⟩
        · exact absurd hy (List.not_mem_nil y)
        · exact (isDescendantCell_self_zoom hyd (hlvl y hy)).symm⟩)

theorem scanRange_nodup (hash : Finset Tile) (zoom y : ℤ) :
    ∀ (n : ℕ) (x : ℤ), (scanRange hash zoom y n x).Nodup
  | 0, x => by
      rw [scanRange]
      exact List.nodup_nil
  | n + 1, x => by
      rw [scanRange]
      by_cases hmem : ((x, y, zoom) : Tile) ∉ hash
      · rw [if_pos hmem, List.singleton_append, List.nodup_cons]
        refine ⟨?_, scanRange_nodup hash zoom y n (x + 1)⟩
        intro hm
        rcases (scanRange_mem hash zoom y n (x + 1) _).mp hm with ⟨w, hEq, h1, -, -⟩
        have hxw : x = w := congrArg Prod.fst hEq
        omega
      · rw [if_neg hmem, List.nil_append]
        exact scanRange_nodup hash zoom y n (x + 1)

theorem scanlineFill_nodup (hash : Finset Tile) (zoom : ℤ) :
    ∀ l : List (ℤ × ℤ), l.Sorted yxLe → (scanlineFill hash zoom l).Nodup
  | [], _ => by
      rw [scanlineFill]
      exact List.nodup_nil
  | [a], _ => by
      rw [scanlineFill]
      exact List.nodup_nil
  | a :: b :: rest, hs => by
      rw [scanlineFill, List.nodup_append]
      refine ⟨scanRange_nodup hash zoom a.2 _ _,
        scanlineFill_nodup hash zoom rest (hs.of_cons.of_cons), ?_⟩
      intro t ht1 ht2
      rcases (scanRange_mem hash zoom a.2 _ _ t).mp ht1 with ⟨x, rfl, hx1, hx2, -⟩
      rcases (scanlineFill_mem hash zoom rest _).mp ht2 with ⟨i, hi, w, hEq, h1, h2, -⟩
      have hxx : x = w := congrArg Prod.fst hEq
      have hyy : a.2 = (rest.getD (2 * i) (0, 0)).2 := congrArg (fun q => q.2.1) hEq
      have hcmem : rest.getD (2 * i) (0, 0) ∈ rest := by
        have hlt : 2 * i < rest.length := by omega
        rw [List.getD_eq_getElem?_getD, List.getElem?_eq_getElem hlt]
        exact List.getElem_mem hlt
      have hab : yxLe a b := (List.sorted_cons.mp hs).1 b (List.mem_cons_self b rest)
      have hbc : yxLe b (rest.getD (2 * i) (0, 0)) :=
        (List.sorted_cons.mp hs.of_cons).1 _ hcmem
      simp only [yxLe] at hab hbc
      omega

theorem sortedIntersections_sorted (coords : List (List Point)) (zoom : ℤ) :
    (sortedIntersections coords zoom).Sorted yxLe :=
  List.sorted_insertionSort yxLe _

theorem merged_zoom (g : Geom) (z : ℤ) :
    ∀ t ∈ _merge_tile_data (dispatch g z).2 (dispatch g z).1, t.2.2 = z := by
  intro t ht
  unfold _merge_tile_data at ht
  rcases List.mem_append.mp ht with h | h
  · exact (dispatch_zoom g z).1 t h
  · exact (dispatch_zoom g z).2 t (Finset.mem_toList.mp h)

theorem merged_nodup (g : Geom) (z : ℤ) (hg : ∀ ps, g ≠ Geom.multiPolygon ps) :
    (_merge_tile_data (dispatch g z).2 (dispatch g z).1).Nodup := by
  unfold _merge_tile_data
  cases g with
  | point c =>
      rw [show (dispatch (Geom.point c) z).1 = [] from rfl, List.nil_append]
      exact Finset.nodup_toList _
  | multiPoint cs =>
      rw [show (dispatch (Geom.multiPoint cs) z).1 = [] from rfl, List.nil_append]
      exact Finset.nodup_toList _
  | lineString cs =>
      rw [show (dispatch (Geom.lineString cs) z).1 = [] from rfl, List.nil_append]
      exact Finset.nodup_toList _
  | multiLineString ls =>
      rw [show (dispatch (Geom.multiLineString ls) z).1 = [] from rfl,
        List.nil_append]
      exact Finset.nodup_toList _
  | polygon rs =>
      rw [List.nodup_append]
      refine ⟨?_, Finset.nodup_toList _, ?_⟩
      · exact scanlineFill_nodup (polygonRings rs z).1 z _
          (sortedIntersections_sorted rs z)
      · intro t ht hmem
        rcases (scanlineFill_mem (polygonRings rs z).1 z
            (sortedIntersections rs z) t).mp ht with ⟨i, hi, x, rfl, h1, h2, h3⟩
        exact h3 (Finset.mem_toList.mp hmem)
  | multiPolygon ps => exact absurd rfl (hg ps)

theorem extrapolate_nodup (T : List Tile) (zmin zmax : ℤ) (hlt : zmin < zmax)
    (hnd : T.Nodup) (hlvl : ∀ t ∈ T, t.2.2 = zmax) :
    (_extrapolate_zoom_range T (zmin, zmax)).Nodup :=
  (extrapolate_spec T zmin zmax hlt hnd hlvl).1

/-- C3 (amended: requires `zmin < zmax`): for every duplicate-free tile list
`T` whose tiles all sit at zoom `zmax` and every `zmin < zmax`, the output of
`_extrapolate_zoom_range T (zmin, zmax)` covers exactly the same area as `T`:
every tile of `T` is a zoom-`zmax` descendant cell of exactly one output tile,
every output tile has zoom in `[zmin, zmax]`, and every zoom-`zmax` descendant
cell of every output tile belongs to `T` (only fully-complete sibling quads are
merged; a tile with no complete quad survives).  For `zmin = zmax` the function
returns `[]` instead, so the original claim fails there. -/
theorem extrapolate_exact_cover (T : List Tile) (zmin zmax : ℤ)
    (hlt : zmin < zmax) (hnd : T.Nodup) (hlvl : ∀ t ∈ T, t.2.2 = zmax) :
    (∀ c ∈ T, ∃! t, t ∈ _extrapolate_zoom_range T (zmin, zmax) ∧
      isDescendantCell zmax c t) ∧
    (∀ t ∈ _extrapolate_zoom_range T (zmin, zmax),
      zmin ≤ t.2.2 ∧ t.2.2 ≤ zmax) ∧
    (∀ t ∈ _extrapolate_zoom_range T (zmin, zmax), ∀ c,
      isDescendantCell zmax c t → c ∈ T) := by
  obtain ⟨-, h2, h3, h4⟩ := extrapolate_spec T zmin zmax hlt hnd hlvl
  exact ⟨h4, h2, h3⟩

/-- C3 witness: extrapolating the four zoom-1 tiles over the range `(0, 1)`
covers exactly their area. -/
theorem extrapolate_exact_cover_holds :
    ((0 : ℤ) < 1 ∧ ([((0, 0, 1) : Tile), (1, 0, 1), (0, 1, 1), (1, 1, 1)]).Nodup ∧
      (∀ t ∈ [((0, 0, 1) : Tile), (1, 0, 1), (0, 1, 1), (1, 1, 1)], t.2.2 = 1)) ∧
    ((∀ c ∈ [((0, 0, 1) : Tile), (1, 0, 1), (0, 1, 1), (1, 1, 1)],
        ∃! t, t ∈ _extrapolate_zoom_range
            [((0, 0, 1) : Tile), (1, 0, 1), (0, 1, 1), (1, 1, 1)] (0, 1) ∧
          isDescendantCell 1 c t) ∧
      (∀ t ∈ _extrapolate_zoom_range
          [((0, 0, 1) : Tile), (1, 0, 1), (0, 1, 1), (1, 1, 1)] (0, 1),
        0 ≤ t.2.2 ∧ t.2.2 ≤ 1) ∧
      (∀ t ∈ _extrapolate_zoom_range
          [((0, 0, 1) : Tile), (1, 0, 1), (0, 1, 1), (1, 1, 1)] (0, 1), ∀ c,
        isDescendantCell 1 c t →
          c ∈ [((0, 0, 1) : Tile), (1, 0, 1), (0, 1, 1), (1, 1, 1)])) :=
  ⟨⟨by decide, by decide, by decide⟩,
    extrapolate_exact_cover [((0, 0, 1) : Tile), (1, 0, 1), (0, 1, 1), (1, 1, 1)]
      0 1 (by decide) (by decide) (by decide)⟩

/-- C7 (amended: excludes multipolygons): for point, multipoint, linestring,
multilinestring and polygon geometries, the tile list returned by `tiles` is
duplicate-free for every zoom input; a multipolygon can return duplicates
because the per-polygon interior lists are concatenated (see the
counterexample). -/
theorem tiles_nodup_non_multipolygon (g : Geom) (zin : ZoomInput) (l : List Tile)
    (hg : ∀ ps, g ≠ Geom.multiPolygon ps) (hl : tiles g zin = .ok l) :
    l.Nodup := by
  cases zin with
  | fixed z =>
      unfold tiles _parse_zoom at hl
      simp only [ne_eq, not_true_eq_false, if_false, Except.ok.injEq] at hl
      subst hl
      exact merged_nodup g z hg
  | range zmin zmax =>
      unfold tiles at hl
      rw [show _parse_zoom (ZoomInput.range zmin zmax) =
          (if zmin > zmax then
            Except.error "invalid zoom range: min greater than max"
          else Except.ok (zmin, zmax)) from rfl] at hl
      by_cases hcmp : zmin > zmax
      · rw [if_pos hcmp] at hl
        simp at hl
      · rw [if_neg hcmp] at hl
        simp only [Except.ok.injEq] at hl
        by_cases hne : zmin ≠ zmax
        · rw [if_pos hne] at hl
          subst hl
          exact extrapolate_nodup _ zmin zmax (by omega)
            (merged_nodup g zmax hg) (merged_zoom g zmax)
        · rw [if_neg hne] at hl
          subst hl
          exact merged_nodup g zmax hg

/-- C7 witness: covering the origin point at zoom 2 returns `[(2, 2, 2)]`,
which is duplicate-free. -/
theorem tiles_nodup_non_multipolygon_holds :
    (tiles (.point ((0 : ℝ), 0)) (ZoomInput.fixed 2) = .ok [((2, 2, 2) : Tile)] ∧
      (∀ ps, Geom.point ((0 : ℝ), 0) ≠ Geom.multiPolygon ps)) ∧
    ([((2, 2, 2) : Tile)]).Nodup := by
  have key : tiles (.point ((0 : ℝ), 0)) (ZoomInput.fixed 2) =
      .ok [((2, 2, 2) : Tile)] := by
    unfold tiles _parse_zoom dispatch cover_point _merge_tile_data
    simp [point_to_tile_origin]
    exact point_to_tile_origin
  exact ⟨⟨key, fun ps h => Geom.noConfusion h⟩,
    tiles_nodup_non_multipolygon _ _ _ (fun ps h => Geom.noConfusion h) key⟩

end TileTools
